import Mathlib

/-!
Shallow embedding of the price-history assembly and strategy-simulation core
of the gold-silver-visualizer repository, together with theorems settling the
frozen specification claims.

Modelling conventions used throughout:
* Calendar dates are day numbers (`Nat`).  The sources represent dates as ISO
  `YYYY-MM-DD` strings and compare them lexicographically, which agrees with
  chronological order, and enumerate them by adding 86400000 ms steps in UTC;
  both are faithfully abstracted by `Nat` days.  The date-string normalizers
  (`toISO`, `toISODate`), whose behaviour is genuinely about strings, are
  modelled on `String` directly.
* JavaScript numbers are modelled as exact rationals (`Rat`); `Number.isFinite`
  checks become `Option` success, since every represented value is finite.
* A JavaScript `Map` is modelled as an association list in insertion order:
  `set` replaces the value at an existing key in place and appends otherwise,
  exactly like `Map.prototype.set`.
* `Array.prototype.sort` with the comparators used by the sources (which are
  only ever applied to lists with pairwise distinct dates, where any
  comparison sort produces the unique sorted permutation) is modelled by
  insertion sort.
* Network effects are modelled by response scripts: a function from the index
  of the request to the scripted response.
-/

namespace GSV

/-- Metal currently held by the strategy (source union type `'Gold' | 'Silver'`). -/
inductive Metal where
  | gold
  | silver
deriving DecidableEq

/-- A daily price record (source `Row = { date: string; gold: number; silver: number }`). -/
structure Row where
  date : Nat
  gold : Rat
  silver : Rat
deriving DecidableEq

/-- One `Map.prototype.set` step on an association list keyed by `date`:
replace in place if the key exists, append otherwise. -/
def setRow : List Row → Row → List Row
  | [], r => [r]
  | x :: xs, r => if x.date = r.date then r :: xs else x :: setRow xs r

/-- `Map.prototype.get`-style lookup: first record with the given date. -/
def lookupRow (l : List Row) (d : Nat) : Option Row :=
  l.find? (fun r => r.date == d)

/-- The last record carrying date `d` in a list (what a JS `Map` built by
inserting the list front-to-back stores at key `d`). -/
def lastRow (l : List Row) (d : Nat) : Option Row :=
  lookupRow l.reverse d

/-- First-of-two option choice (`a ?? b` on option values). -/
def ofirst (a b : Option Row) : Option Row :=
  match a with
  | some r => some r
  | none => b

/-- Insertion step of the date sort (model of the source comparator
`(x, y) => (x.date < y.date ? -1 : 1)`). -/
def insertSorted (r : Row) : List Row → List Row
  | [] => [r]
  | x :: xs => if r.date < x.date then r :: x :: xs else x :: insertSorted r xs

/-- Ascending sort by date (the source lists being sorted always have pairwise
distinct dates, so this is the unique sorted permutation that
`Array.prototype.sort` returns). -/
def sortRows (l : List Row) : List Row :=
  l.foldr insertSorted []

/-- Source `mergeRows(a, b)` (App part): insert all of `a`, then all of `b`,
into one date-keyed map and sort the values by date. -/
def mergeRows (a b : List Row) : List Row :=
  sortRows (List.foldl setRow (List.foldl setRow [] a) b)

/-! ### Gap detection (parts 003/004: `enumerateDates`, `prevDay`, `missingRanges`) -/

/-- Source `enumerateDates(start, end)`: every calendar day from `s` to `e`
inclusive (empty when `e < s`), as day numbers. -/
def enumerateDates (s e : Nat) : List Nat :=
  List.range' s (e + 1 - s)

/-- Source `prevDay`: the previous calendar day. -/
def prevDay (d : Nat) : Nat := d - 1

/-- Loop of source `missingRanges(need, have)`: scan the enumerated days in
order, opening a run at the first absent day and closing it (at the day before
the present day) when a present day is met; `lastD` is `need.at(-1)`, used when
the scan ends inside an open run. -/
def missingRangesGo (hv : Nat → Bool) (lastD : Nat) : List Nat → Option Nat → List (Nat × Nat)
  | [], none => []
  | [], some rs => [(rs, lastD)]
  | d :: rest, none =>
      if hv d then missingRangesGo hv lastD rest none
      else missingRangesGo hv lastD rest (some d)
  | d :: rest, some rs =>
      if hv d then (rs, prevDay d) :: missingRangesGo hv lastD rest none
      else missingRangesGo hv lastD rest (some rs)

/-- Source `missingRanges(need, have)`; `hv d` models `have.has(d)`. -/
def missingRanges (need : List Nat) (hv : Nat → Bool) : List (Nat × Nat) :=
  missingRangesGo hv (need.getLastD 0) need none

/-- The days a gap `[a, b]` stands for. -/
def toRange (p : Nat × Nat) : List Nat :=
  List.range' p.1 (p.2 + 1 - p.1)

/-- Days already committed to the pending run of the gap scan: none when no
run is open, the run `[rs, s)` when a run opened at `rs` and the scan stands
at `s`. -/
def stRange (s : Nat) : Option Nat → List Nat
  | none => []
  | some rs => List.range' rs (s - rs)

/-- Lower bound for the first day of any gap the scan can still produce. -/
def stBase (s : Nat) : Option Nat → Nat
  | none => s
  | some rs => rs

/-! ### Remote fetcher with retry (part 001: `fetchJsonWithRetry`) -/

/-- Abstraction of the JSON body the metal-price API returns: `success` is the
`success` field, `rateLimited` models whether the error info text contains
`'too many'` or `'rate'` (lower-cased), `info` the error info text itself. -/
structure ApiJson where
  success : Bool
  rateLimited : Bool
  info : String
deriving DecidableEq

/-- One scripted HTTP response: status code, optional finite `Retry-After`
header (in seconds), the parsed JSON body (`none` models a body on which
`resp.json()` rejects) and the raw body text used in error messages. -/
structure HttpResp where
  status : Nat
  retryAfter : Option Nat
  goodJson : Option ApiJson
  bodyText : String

/-- `Response.ok`: status in the 2xx range. -/
def respOk (r : HttpResp) : Bool :=
  decide (200 ≤ r.status) && decide (r.status < 300)

/-- Milliseconds obtained from the `Retry-After` header (0 when absent, as in
the source where `retryAfterMs` starts at 0). -/
def retryAfterMs (r : HttpResp) : Nat :=
  (r.retryAfter.getD 0) * 1000

/-- Failures `fetchJsonWithRetry` can throw. -/
inductive FetchErr where
  | invalidJson
  | apiErr (info : String)
  | httpErr (status : Nat) (body : String)
  | exhausted
deriving DecidableEq

/-- Source `bumpThrottle`: raise the session throttle, clamped at 5000 ms. -/
def bumpThrottle (thr ms : Nat) : Nat :=
  min 5000 (max thr ms)

/-- The backoff delay before retrying attempt `i`:
`max(retryAfterMs, baseDelayMs * 2^(i-1))`. -/
def fetchStepDelay (baseDelayMs i : Nat) (r : HttpResp) : Nat :=
  max (retryAfterMs r) (baseDelayMs * 2 ^ (i - 1))

instance {ε α : Type} [DecidableEq ε] [DecidableEq α] : DecidableEq (Except ε α) := fun a b =>
  match a, b with
  | .ok x, .ok y => decidable_of_iff (x = y) (by constructor <;> (intro h; cases h; rfl))
  | .error x, .error y => decidable_of_iff (x = y) (by constructor <;> (intro h; cases h; rfl))
  | .ok _, .error _ => .isFalse (by intro h; cases h)
  | .error _, .ok _ => .isFalse (by intro h; cases h)

/-- Observable outcome of one `fetchJsonWithRetry` call: the returned value or
thrown error, the backoff sleeps performed in order, the number of HTTP
requests issued, and the final session throttle. -/
structure FetchOutcome where
  result : Except FetchErr ApiJson
  waits : List Nat
  used : Nat
  throttle : Nat
deriving DecidableEq

/-- What one loop iteration of `fetchJsonWithRetry` decides: terminate with a
value or thrown error (`done`), or back off for `delay` ms and continue
(`retry`). -/
inductive StepRes where
  | done (res : Except FetchErr ApiJson)
  | retry (delay : Nat)
deriving DecidableEq

/-- The 2xx-response half of one `fetchJsonWithRetry` attempt: a rejecting
`resp.json()` throws immediately, an API error body retries only when
rate-limited and attempts remain, otherwise the parsed body is returned. -/
def fetchAttemptOk (attempts baseDelayMs i : Nat) (resp : HttpResp) : Option ApiJson → StepRes
  | none => .done (.error .invalidJson)
  | some j =>
    if j.success then .done (.ok j)
    else
      if j.rateLimited && decide (i < attempts) then
        .retry (fetchStepDelay baseDelayMs i resp)
      else .done (.error (.apiErr j.info))

/-- One attempt of source `fetchJsonWithRetry`, attempt number `i`, on
response `resp`: see `fetchAttemptOk` for 2xx responses; on 429/5xx the
attempt retries while attempts remain; any other status throws immediately
with the body text. -/
def fetchAttempt (attempts baseDelayMs i : Nat) (resp : HttpResp) : StepRes :=
  if respOk resp then fetchAttemptOk attempts baseDelayMs i resp resp.goodJson
  else
    if (resp.status == 429 || decide (500 ≤ resp.status)) && decide (i < attempts) then
      .retry (fetchStepDelay baseDelayMs i resp)
    else .done (.error (.httpErr resp.status resp.bodyText))

/-- Loop of source `fetchJsonWithRetry` (attempt counter `i` runs from 1;
the fuel equals the remaining loop iterations, so fuel 0 is the post-loop
`throw new Error('Failed to fetch after retries')`); every backoff also bumps
the session throttle, as in the source. -/
def fetchGo (responses : Nat → HttpResp) (attempts baseDelayMs : Nat) :
    Nat → Nat → List Nat → Nat → FetchOutcome
  | 0, i, acc, thr => ⟨.error .exhausted, acc.reverse, i - 1, thr⟩
  | fuel + 1, i, acc, thr =>
    match fetchAttempt attempts baseDelayMs i (responses i) with
    | .done res => ⟨res, acc.reverse, i, thr⟩
    | .retry delay =>
      fetchGo responses attempts baseDelayMs fuel (i + 1) (delay :: acc)
        (bumpThrottle thr delay)

/-- Source `fetchJsonWithRetry(url, attempts = 5, baseDelayMs = 700)` for one
scripted endpoint, starting from session throttle `thr`. -/
def fetchJsonWithRetry (responses : Nat → HttpResp) (attempts baseDelayMs thr : Nat) :
    FetchOutcome :=
  fetchGo responses attempts baseDelayMs attempts 1 [] thr

/-! ### MetalpriceAPI fetch and history assembler (parts 003 and 004) -/

/-- One per-date entry of the API `rates` map; each field is the corresponding
rate when present and finite. -/
structure RateEntry where
  usdxau : Option Rat
  xau : Option Rat
  usdxag : Option Rat
  xag : Option Rat
deriving DecidableEq

/-- Parsed body of one API response: `malformed` models a body on which
`resp.json()` rejects, `noRates` a parsed body that is falsy or lacks `rates`. -/
inductive ApiBody where
  | malformed
  | noRates
  | rates (l : List (Nat × RateEntry))
deriving DecidableEq

/-- One scripted API HTTP response. -/
structure ApiResp where
  status : Nat
  body : ApiBody
deriving DecidableEq

/-- `Response.ok` for `ApiResp`. -/
def apiOk (r : ApiResp) : Bool :=
  decide (200 ≤ r.status) && decide (r.status < 300)

/-- Source `r.USDXAU ?? (r.XAU ? 1 / r.XAU : undefined)`; note `r.XAU ?` is a
falsiness test, so a zero rate yields `undefined` rather than a division. -/
def deriveGold (e : RateEntry) : Option Rat :=
  match e.usdxau with
  | some g => some g
  | none =>
    match e.xau with
    | some x => if x = 0 then none else some (1 / x)
    | none => none

/-- Source `r.USDXAG ?? (r.XAG ? 1 / r.XAG : undefined)`. -/
def deriveSilver (e : RateEntry) : Option Rat :=
  match e.usdxag with
  | some s => some s
  | none =>
    match e.xag with
    | some x => if x = 0 then none else some (1 / x)
    | none => none

/-- Insertion step for sorting the per-date keys of the `rates` object. -/
def insertPairSorted (p : Nat × RateEntry) :
    List (Nat × RateEntry) → List (Nat × RateEntry)
  | [] => [p]
  | x :: xs => if p.1 < x.1 then p :: x :: xs else x :: insertPairSorted p xs

/-- `Object.keys(j.rates).sort()` followed by the per-date walk: object keys
are unique, so insertion sort models the engine sort faithfully. -/
def sortPairs (l : List (Nat × RateEntry)) : List (Nat × RateEntry) :=
  l.foldr insertPairSorted []

/-- Rows derived from a `rates` map: walk the date keys in ascending order and
keep the dates where both derived prices are usable. -/
def rowsFromRates (l : List (Nat × RateEntry)) : List Row :=
  (sortPairs l).filterMap (fun p =>
    match deriveGold p.2, deriveSilver p.2 with
    | some g, some sv => some ⟨p.1, g, sv⟩
    | _, _ => none)

/-- Source `fetchMetalAPI` of part 004: throws `HTTP <status>` on a non-2xx
response and propagates a JSON parse failure; `k` is the index of this request
in the scripted response stream. -/
def fetchMetalAPI4 (api : Nat → ApiResp) (k : Nat) : Except FetchErr (List Row) :=
  let r := api k
  if apiOk r then
    match r.body with
    | .malformed => .error .invalidJson
    | .noRates => .ok []
    | .rates l => .ok (rowsFromRates l)
  else .error (.httpErr r.status "")

/-- Source `fetchMetalAPI` of part 003: every failure (non-2xx status,
rejected JSON, missing `rates`) is absorbed into an empty row list. -/
def fetchMetalAPI3 (api : Nat → ApiResp) (k : Nat) : List Row :=
  let r := api k
  if apiOk r then
    match r.body with
    | .malformed => []
    | .noRates => []
    | .rates l => rowsFromRates l
  else []

/-- `for (const r of rows) if (!map.has(r.date)) map.set(r.date, r)`:
API rows never overwrite records already present. -/
def fillAbsent (m : List Row) (rows : List Row) : List Row :=
  rows.foldl (fun acc r => if (lookupRow acc r.date).isSome then acc else setRow acc r) m

/-- Trace of the externally visible effects of one `loadMergedPrices` call:
whether the CSV source was requested over the network, and the inclusive
day ranges of the API requests issued, in order. -/
structure LoadTrace where
  csvRequested : Bool
  apiCalls : List (Nat × Nat)
deriving DecidableEq

/-- Sub-chunk loop of `loadMergedPrices` over one gap `[cur, endT]`
(≤ 360-day chunks, stepping by 361 days).  The fuel `endT + 1 - cur` bounds
the iteration count (each iteration advances `cur` by 361), making the
recursion structural; part 004 variant, which propagates fetch errors. -/
def chunkGo4 (api : Nat → ApiResp) :
    Nat → Nat → Nat → Nat → List Row → List (Nat × Nat) →
    Except FetchErr (List Row × Nat × List (Nat × Nat))
  | 0, _, _, k, m, log => .ok (m, k, log)
  | fuel + 1, cur, endT, k, m, log =>
    if cur ≤ endT then
      let cEnd := min (cur + 360) endT
      match fetchMetalAPI4 api k with
      | .error e => .error e
      | .ok rows => chunkGo4 api fuel (cur + 361) endT (k + 1) (fillAbsent m rows)
          (log ++ [(cur, cEnd)])
    else .ok (m, k, log)

/-- Part 003 variant of the sub-chunk loop: total, failures already absorbed. -/
def chunkGo3 (api : Nat → ApiResp) :
    Nat → Nat → Nat → Nat → List Row → List (Nat × Nat) →
    List Row × Nat × List (Nat × Nat)
  | 0, _, _, k, m, log => (m, k, log)
  | fuel + 1, cur, endT, k, m, log =>
    if cur ≤ endT then
      let cEnd := min (cur + 360) endT
      let rows := fetchMetalAPI3 api k
      chunkGo3 api fuel (cur + 361) endT (k + 1) (fillAbsent m rows) (log ++ [(cur, cEnd)])
    else (m, k, log)

/-- Gap loop of part 004 `loadMergedPrices`. -/
def gapLoop4 (api : Nat → ApiResp) :
    List (Nat × Nat) → Nat → List Row → List (Nat × Nat) →
    Except FetchErr (List Row × Nat × List (Nat × Nat))
  | [], k, m, log => .ok (m, k, log)
  | (gs, ge) :: rest, k, m, log =>
    match chunkGo4 api (ge + 1 - gs) gs ge k m log with
    | .error e => .error e
    | .ok (m', k', log') => gapLoop4 api rest k' m' log'

/-- Gap loop of part 003 `loadMergedPrices`. -/
def gapLoop3 (api : Nat → ApiResp) :
    List (Nat × Nat) → Nat → List Row → List (Nat × Nat) →
    List Row × Nat × List (Nat × Nat)
  | [], k, m, log => (m, k, log)
  | (gs, ge) :: rest, k, m, log =>
    let (m', k', log') := chunkGo3 api (ge + 1 - gs) gs ge k m log
    gapLoop3 api rest k' m' log'

/-- Final step of `loadMergedPrices`: map values restricted to the requested
window, sorted ascending by date. -/
def finalizeRows (m : List Row) (s e : Nat) : List Row :=
  sortRows (m.filter (fun r => decide (s ≤ r.date) && decide (r.date ≤ e)))

/-- Source `loadMergedPrices(start, end, apiKey?)`, part 004 variant.  `csv`
is the outcome of `await loadCsvFromPublic().catch(() => [])` (that request is
always issued, hence `csvRequested := true` in the trace); `hasKey` models a
non-empty `apiKey`; `api` scripts the API responses by request index. -/
def loadMergedPrices4 (csv : List Row) (api : Nat → ApiResp) (hasKey : Bool)
    (s e : Nat) : Except FetchErr (List Row) × LoadTrace :=
  let m0 := List.foldl setRow [] csv
  let required := enumerateDates s e
  let hv := fun d => (lookupRow m0 d).isSome
  let gaps := missingRanges required hv
  if hasKey && !gaps.isEmpty then
    match gapLoop4 api gaps 0 m0 [] with
    | .error err => (.error err, ⟨true, []⟩)
    | .ok (m, _, log) => (.ok (finalizeRows m s e), ⟨true, log⟩)
  else (.ok (finalizeRows m0 s e), ⟨true, []⟩)

/-- Source `loadMergedPrices(start, end, apiKey?)`, part 003 variant (total:
fetch failures degrade to empty chunks). -/
def loadMergedPrices3 (csv : List Row) (api : Nat → ApiResp) (hasKey : Bool)
    (s e : Nat) : List Row × LoadTrace :=
  let m0 := List.foldl setRow [] csv
  let required := enumerateDates s e
  let hv := fun d => (lookupRow m0 d).isSome
  let gaps := missingRanges required hv
  if hasKey && !gaps.isEmpty then
    let (m, _, log) := gapLoop3 api gaps 0 m0 []
    (finalizeRows m s e, ⟨true, log⟩)
  else (finalizeRows m0 s e, ⟨true, []⟩)

/-! ### Strategy simulator (part 001: `simulate`)

Fields renamed only where the spelling of the source name is unavailable here:
`gsr` is the source field `ratio` (gold/silver price ratio), `port` is the
source field `portfolio`, `portPct` is `portfolioPct`. -/

/-- Direction tag of a switch (source `'G→S' | 'S→G'`). -/
inductive Dir where
  | GtoS
  | StoG
deriving DecidableEq

/-- One simulation output point (source `SimPoint`). -/
structure SimPoint where
  date : Nat
  gold : Rat
  silver : Rat
  gsr : Rat
  port : Rat
  goldValue : Rat
  silverValue : Rat
  portPct : Rat
  goldPct : Rat
  silverPct : Rat
  diffVsGold : Rat
  diffVsSilver : Rat
  heldMetal : Metal
  heldOunces : Rat
  switched : Option Dir
deriving DecidableEq

/-- Default point used only as the `List.getD` fallback in statements. -/
def dfltPoint : SimPoint :=
  ⟨0, 0, 0, 0, 0, 0, 0, 0, 0, 0, 0, 0, .gold, 0, none⟩

/-- Default row used only as the `List.getD` fallback in statements. -/
def dfltRow : Row := ⟨0, 0, 0⟩

/-- Mutable loop state of `simulate`: held metal and ounces held. -/
structure SimState where
  held : Metal
  ounces : Rat
deriving DecidableEq

/-- One iteration of the `simulate` loop.  `prevOpt` is `none` exactly on the
first iteration (`i = 0`), where the source sets `prevRatio` to the current
ratio; otherwise it carries the previous row's ratio.  Thresholds are `Option`
valued: `none` models an absent/non-finite threshold (the source guards
`g2s != null && Number.isFinite(g2s)`). -/
def simStep (g2s s2g : Option Rat) (startAmount goldBHoz silverBHoz : Rat)
    (st : SimState) (r : Row) (prevOpt : Option Rat) : SimState × SimPoint :=
  let rat := r.gold / r.silver
  let prevR := prevOpt.getD rat
  let step : SimState × Option Dir :=
    if g2s = none ∧ s2g = none then (st, none)
    else
      match st.held with
      | .gold =>
        match g2s with
        | none => (st, none)
        | some u =>
          if u ≤ rat ∧ (prevOpt = none ∨ prevR < u) then
            (⟨.silver, st.ounces * r.gold / r.silver⟩, some .GtoS)
          else (st, none)
      | .silver =>
        match s2g with
        | none => (st, none)
        | some u =>
          if rat ≤ u ∧ (prevOpt = none ∨ u < prevR) then
            (⟨.gold, st.ounces * r.silver / r.gold⟩, some .StoG)
          else (st, none)
  let st' := step.1
  let port := match st'.held with
    | .gold => st'.ounces * r.gold
    | .silver => st'.ounces * r.silver
  let goldValue := goldBHoz * r.gold
  let silverValue := silverBHoz * r.silver
  let portPct := (port / startAmount - 1) * 100
  let goldPct := (goldValue / startAmount - 1) * 100
  let silverPct := (silverValue / startAmount - 1) * 100
  (st', ⟨r.date, r.gold, r.silver, rat, port, goldValue, silverValue, portPct,
    goldPct, silverPct, portPct - goldPct, portPct - silverPct, st'.held,
    st'.ounces, step.2⟩)

/-- The `simulate` loop over the filtered rows, threading state and previous
ratio. -/
def simGo (g2s s2g : Option Rat) (startAmount goldBHoz silverBHoz : Rat) :
    SimState → Option Rat → List Row → List SimPoint
  | _, _, [] => []
  | st, prevOpt, r :: rest =>
    (simStep g2s s2g startAmount goldBHoz silverBHoz st r prevOpt).2
      :: simGo g2s s2g startAmount goldBHoz silverBHoz
          (simStep g2s s2g startAmount goldBHoz silverBHoz st r prevOpt).1
          (some (r.gold / r.silver)) rest

/-- The date-window filter applied by `simulate`. -/
def inWindow (startDate endDate : Nat) (r : Row) : Bool :=
  decide (startDate ≤ r.date) && decide (r.date ≤ endDate)

/-- Starting units: `startAmount / price(startMetal)` at the first record. -/
def startOunces (startMetal : Metal) (startAmount : Rat) (first : Row) : Rat :=
  match startMetal with
  | .gold => startAmount / first.gold
  | .silver => startAmount / first.silver

/-- Source `simulate(rows, startDate, endDate, startMetal, startAmount, g2s?, s2g?)`. -/
def simulate (rows : List Row) (startDate endDate : Nat) (startMetal : Metal)
    (startAmount : Rat) (g2s s2g : Option Rat) : List SimPoint :=
  match rows.filter (inWindow startDate endDate) with
  | [] => []
  | first :: rest =>
    simGo g2s s2g startAmount (startAmount / first.gold) (startAmount / first.silver)
      ⟨startMetal, startOunces startMetal startAmount first⟩ none (first :: rest)

/-- The gold-to-silver crossing condition at one step, with `prevO = none`
meaning "this is the first step": an up-threshold is configured, the current
ratio is at or above it, and the step is the first or the previous ratio was
strictly below it. -/
def crossUpCond (g2s : Option Rat) (cur : Rat) (prevO : Option Rat) : Prop :=
  ∃ u, g2s = some u ∧ u ≤ cur ∧ (prevO = none ∨ ∃ q, prevO = some q ∧ q < u)

/-- The silver-to-gold crossing condition at one step (mirror image). -/
def crossDownCond (s2g : Option Rat) (cur : Rat) (prevO : Option Rat) : Prop :=
  ∃ u, s2g = some u ∧ cur ≤ u ∧ (prevO = none ∨ ∃ q, prevO = some q ∧ u < q)

/-- The crossing rule at one step of the simulation: given the metal held on
entry to the step and the step's previous-ratio information, a switch marker
appears on the produced point exactly when the matching threshold crossing
condition holds, and never in the direction of the held metal. -/
def stepCross (g2s s2g : Option Rat) (hIn : Metal) (p : SimPoint) (pOpt : Option Rat) : Prop :=
  (hIn = .gold →
    ((p.switched = some .GtoS) ↔ crossUpCond g2s p.gsr pOpt)
    ∧ p.switched ≠ some .StoG)
  ∧ (hIn = .silver →
    ((p.switched = some .StoG) ↔ crossDownCond s2g p.gsr pOpt)
    ∧ p.switched ≠ some .GtoS)

/-! ### String-level helpers: JS `trim`, `toLowerCase`, `Number(...)` -/

/-- Whitespace stripped by `String.prototype.trim` (the common ASCII cases). -/
def isWs (c : Char) : Bool :=
  c = ' ' || c = '\t' || c = '\n' || c = '\r'

/-- Model of `String.prototype.trim`. -/
def jsTrim (s : String) : String :=
  String.mk (((s.toList.dropWhile isWs).reverse.dropWhile isWs).reverse)

/-- Model of `String.prototype.toLowerCase` (ASCII). -/
def toLowerStr (s : String) : String :=
  String.mk (s.toList.map Char.toLower)

/-- Substring containment, the meaning of a literal regexp test such as
`/date/.test(h)`. -/
def containsSub (needle hay : String) : Bool :=
  hay.toList.tails.any (fun t => needle.toList.isPrefixOf t)

/-- Numeric value of a digit string. -/
def digitsVal (l : List Char) : Nat :=
  l.foldl (fun a c => a * 10 + (c.toNat - 48)) 0

/-- Model of JavaScript `Number(string)` restricted to the decimal forms the
data paths feed it: optional sign, integer digits, optional fraction.  The
result is `none` when JS would produce `NaN` or an infinity — precisely the
values `Number.isFinite` rejects.  (Exponent and hex forms are not modelled;
they would also parse finitely in JS but never arise from price CSV cells.) -/
def jsNumber (s : String) : Option Rat :=
  let t := (jsTrim s).toList
  match t with
  | [] => some 0
  | _ =>
    let su : Int × List Char :=
      match t with
      | '-' :: r => (-1, r)
      | '+' :: r => (1, r)
      | r => (1, r)
    let ip := su.2.takeWhile Char.isDigit
    let rest := su.2.dropWhile Char.isDigit
    match rest with
    | [] => if ip.isEmpty then none else some ((su.1 * (digitsVal ip : Int) : Int) : Rat)
    | '.' :: fr =>
      if fr.all Char.isDigit && !(ip.isEmpty && fr.isEmpty) then
        some ((su.1 : Rat) * ((digitsVal ip : Rat) + (digitsVal fr : Rat) / ((10 : Rat) ^ fr.length)))
      else none
    | _ => none

/-! ### Date normalizer of parts 003/004 (`toISO`) and the CSV parser -/

/-- Shape test for the `^\d{4}-\d{2}-\d{2}$` regexp. -/
def isIsoShape (s : String) : Bool :=
  match s.toList with
  | [a, b, c, d, h1, e, f, h2, g, i] =>
    a.isDigit && b.isDigit && c.isDigit && d.isDigit && h1 = '-' &&
    e.isDigit && f.isDigit && h2 = '-' && g.isDigit && i.isDigit
  | _ => false

/-- Separator class `[\/\-]`. -/
def isSep (c : Char) : Bool :=
  c = '/' || c = '-'

/-- Matcher for `^(\d{1,2})[\/\-](\d{1,2})[\/\-](\d{2,4})$` (part 001) and its
4-digit-year restriction (parts 003/004): returns the three numeric groups.
`yMin` is the minimum year-group length (2 for part 001, 4 for parts 003/004). -/
def dmyMatch (yMin : Nat) (s : String) : Option (Nat × Nat × Nat) :=
  let l := s.toList
  let g1 := l.takeWhile Char.isDigit
  let r1 := l.dropWhile Char.isDigit
  if g1.length < 1 || 2 < g1.length then none
  else
    match r1 with
    | s1 :: r2 =>
      if isSep s1 then
        let g2 := r2.takeWhile Char.isDigit
        let r3 := r2.dropWhile Char.isDigit
        if g2.length < 1 || 2 < g2.length then none
        else
          match r3 with
          | s2 :: r4 =>
            if isSep s2 then
              let g3 := r4.takeWhile Char.isDigit
              let r5 := r4.dropWhile Char.isDigit
              if yMin ≤ g3.length && g3.length ≤ 4 && r5.isEmpty then
                some (digitsVal g1, digitsVal g2, digitsVal g3)
              else none
            else none
          | [] => none
      else none
    | [] => none

/-- Two-digit zero padding (`String(n).padStart(2, '0')`). -/
def pad2 (n : Nat) : String :=
  if n < 10 then "0" ++ toString n else toString n

/-- Source `toISO` of parts 003/004: exact ISO strings pass through, a
`D/M/Y`-or-`M/D/Y` form with 4-digit year is rebuilt textually (larger first
component is the day), anything else goes to the generic `new Date(string)`
parse, modelled by the oracle `fb` (`none` = invalid date). -/
def toISO (fb : String → Option String) (s : String) : Option String :=
  let a := jsTrim s
  if isIsoShape a then some a
  else
    match dmyMatch 4 a with
    | some (p1, p2, y) =>
      let md : Nat × Nat :=
        if 12 < p1 then (p2, p1)
        else if 12 < p2 then (p1, p2)
        else (p1, p2)
      some (toString y ++ "-" ++ pad2 md.1 ++ "-" ++ pad2 md.2)
    | none => fb a

/-- A record produced by the CSV parser (date still in string form). -/
structure CsvRow where
  date : String
  gold : Rat
  silver : Rat
deriving DecidableEq

/-- `Map.prototype.set` on `CsvRow` association lists keyed by the date string. -/
def setCsvRow : List CsvRow → CsvRow → List CsvRow
  | [], r => [r]
  | x :: xs, r => if x.date = r.date then r :: xs else x :: setCsvRow xs r

/-- Insertion step of the `localeCompare` date sort (distinct ISO-format keys,
where `localeCompare` agrees with ordinal string order). -/
def insertCsvSorted (r : CsvRow) : List CsvRow → List CsvRow
  | [] => [r]
  | x :: xs => if r.date < x.date then r :: x :: xs else x :: insertCsvSorted r xs

/-- Ascending sort of CSV rows by date string. -/
def sortCsvRows (l : List CsvRow) : List CsvRow :=
  l.foldr insertCsvSorted []

/-- Source `parseCsv` of parts 003/004, taken at the granularity of already
split lines and comma cells (`lines[i].split(',')`): header columns are
matched case-insensitively against `/date/`, `/gold/`, `/silver/`; a data row
is kept only if it has at least 3 cells, its date normalizes and both prices
are finite numbers; the result is deduplicated by date (last wins) and sorted.
A cell index beyond the row (JS `undefined`) fails the parse. -/
def parseCsv (fb : String → Option String) (cells : List (List String)) : List CsvRow :=
  match cells with
  | [] => []
  | header :: dataLines =>
    let head := header.map (fun h => toLowerStr (jsTrim h))
    match head.findIdx? (fun h => containsSub "date" h),
        head.findIdx? (fun h => containsSub "gold" h),
        head.findIdx? (fun h => containsSub "silver" h) with
    | some di, some gi, some si =>
      let out := dataLines.filterMap (fun c =>
        if c.length < 3 then none
        else
          match (c.get? di).bind (fun x => toISO fb (jsTrim x)),
              (c.get? gi).bind jsNumber, (c.get? si).bind jsNumber with
          | some d, some g, some sv => some (⟨d, g, sv⟩ : CsvRow)
          | _, _, _ => none)
      sortCsvRows (List.foldl setCsvRow [] out)
    | _, _, _ => []

/-! ### Date normalizer of part 001 (`toISODate`) and the JS `Date` model

`Date.prototype.toISOString` throws a `RangeError` when the timestamp is
outside the representable range of ±8.64e15 milliseconds, so `toISODate` is
modelled in `Except Unit`, `.error ()` being a thrown `RangeError`. -/

/-- Proleptic-Gregorian civil date from days since 1970-01-01
(the date part of a JS UTC timestamp). -/
def civilFromDays (day : Int) : Int × Int × Int :=
  let z := day + 719468
  let era := z.fdiv 146097
  let doe := z - era * 146097
  let yoe := (doe - doe / 1460 + doe / 36524 - doe / 146096) / 365
  let y := yoe + era * 400
  let doy := doe - (365 * yoe + yoe / 4 - yoe / 100)
  let mp := (5 * doy + 2) / 153
  let d := doy - (153 * mp + 2) / 5 + 1
  let m := mp + (if mp < 10 then 3 else -9)
  (y + (if m ≤ 2 then 1 else 0), m, d)

/-- Days since 1970-01-01 of a civil date (months 1–12). -/
def daysFromCivil (y m d : Int) : Int :=
  let y1 := y - (if m ≤ 2 then 1 else 0)
  let era := y1.fdiv 400
  let yoe := y1 - era * 400
  let doy := (153 * (m + (if 2 < m then -3 else 9)) + 2) / 5 + d - 1
  let doe := yoe * 365 + yoe / 4 - yoe / 100 + doy
  era * 146097 + doe - 719468

/-- Model of `Date.UTC(y, monthIndex, day)` in milliseconds: out-of-range
month indices and days overflow into adjacent months/years as in JS.  (Only
reached with `y ≥ 100`, so the JS two-digit-year quirk of `Date.UTC` does not
arise.) -/
def dateUTCms (y monthIndex day : Int) : Int :=
  let ya := y + monthIndex.fdiv 12
  let m := monthIndex.emod 12
  (daysFromCivil ya (m + 1) 1 + (day - 1)) * 86400000

/-- Zero-padded decimal rendering of a calendar component. -/
def padInt (width : Nat) (n : Int) : String :=
  if 0 ≤ n then
    let s := toString n.toNat
    if s.length < width then String.mk (List.replicate (width - s.length) '0') ++ s else s
  else "-" ++ toString (-n)

/-- The `YYYY-MM-DD` slice of `toISOString` for a day number.  (JS renders
years outside 0–9999 in an expanded ±6-digit form; such years are reachable
only from extreme spreadsheet serials and are rendered here unpadded.) -/
def isoOfDay (day : Int) : String :=
  let c := civilFromDays day
  padInt 4 c.1 ++ "-" ++ padInt 2 c.2.1 ++ "-" ++ padInt 2 c.2.2

/-- `new Date(ms).toISOString().slice(0, 10)`: throws (`.error ()`) when `ms`
is outside the JS `Date` range of ±8.64e15 ms (the timestamp is then `NaN`
and `toISOString` raises `RangeError`). -/
def jsToIsoFromMs (ms : Int) : Except Unit String :=
  if ms.natAbs ≤ 8640000000000000 then .ok (isoOfDay (ms.fdiv 86400000))
  else .error ()

/-- `Date.UTC(1899, 11, 30)` — the spreadsheet-serial epoch, in ms
(day −25569, i.e. serial 1 lands on 1899-12-31). -/
def excelEpochMs : Int := -2209161600000

/-- Source `toISODate` of part 001.  Branches in priority order: exact ISO
shape; all-digit spreadsheet serial (via `new Date(epoch + n*86400000)`);
`D/M/Y` with 2–4 digit year (2-digit years mapped to 1970–2069, components
swapped when the month slot exceeds 12 and the day slot does not) rendered through
`Date.UTC`; otherwise the generic `Date.parse`, modelled by the oracle `fb`
returning the parsed timestamp in ms (`none` = `NaN`). -/
def toISODate (fb : String → Option Int) (input : String) : Except Unit (Option String) :=
  let s := jsTrim input
  if isIsoShape s then .ok (some s)
  else if !s.isEmpty && s.toList.all Char.isDigit then
    (jsToIsoFromMs (excelEpochMs + (digitsVal s.toList : Int) * 86400000)).map some
  else
    match dmyMatch 2 s with
    | some (p1, p2, y0) =>
      let y : Int := if y0 < 100 then (if 70 ≤ y0 then y0 + 1900 else y0 + 2000) else y0
      let dm : Nat × Nat := if 12 < p2 && p1 ≤ 12 then (p2, p1) else (p1, p2)
      (jsToIsoFromMs (dateUTCms y ((dm.2 : Int) - 1) (dm.1 : Int))).map some
    | none =>
      match fb s with
      | some t => (jsToIsoFromMs t).map some
      | none => .ok none

/-! ### Declarative retry-policy spec (following the specification's words) -/

/-- A response on which the fetcher backs off and retries: HTTP 429 or 5xx, or
an API-reported rate-limited condition inside a 2xx response. -/
def retryable (r : HttpResp) : Prop :=
  (respOk r = true ∧ ∃ j, r.goodJson = some j ∧ j.success = false ∧ j.rateLimited = true)
  ∨ (respOk r = false ∧ (r.status = 429 ∨ 500 ≤ r.status))

/-- What the specification allows the terminating attempt `i` (of `attempts`)
to look like: success on a well-formed 2xx body; immediate failure on a 2xx
body with malformed JSON; an API error when a 2xx error body is not
rate-limited or retries are exhausted; an HTTP error on 429/5xx only when
retries are exhausted; and an immediate HTTP error, with the body attached, on
any other non-2xx status. -/
def lastOutcome (r : HttpResp) (i attempts : Nat) (res : Except FetchErr ApiJson) : Prop :=
  (respOk r = true ∧ r.goodJson = none ∧ res = .error .invalidJson)
  ∨ (respOk r = true ∧ ∃ j, r.goodJson = some j ∧ j.success = true ∧ res = .ok j)
  ∨ (respOk r = true ∧ ∃ j, r.goodJson = some j ∧ j.success = false ∧
      (j.rateLimited = false ∨ i = attempts) ∧ res = .error (.apiErr j.info))
  ∨ (respOk r = false ∧ (r.status = 429 ∨ 500 ≤ r.status) ∧ i = attempts ∧
      res = .error (.httpErr r.status r.bodyText))
  ∨ (respOk r = false ∧ r.status ≠ 429 ∧ r.status < 500 ∧
      res = .error (.httpErr r.status r.bodyText))

/-! ## Theorems

### Association-list and sorting lemmas for the series store -/

theorem lookupRow_nil (d : Nat) : lookupRow [] d = none := rfl

theorem lookupRow_cons (x : Row) (xs : List Row) (d : Nat) :
    lookupRow (x :: xs) d = if x.date = d then some x else lookupRow xs d := by
  by_cases h : x.date = d
  · simp [lookupRow, List.find?_cons_of_pos, h]
  · rw [if_neg h]
    exact List.find?_cons_of_neg _ (by simpa using h)

theorem lookupRow_date_eq {l : List Row} {d : Nat} {r : Row}
    (h : lookupRow l d = some r) : r.date = d := by
  simpa using List.find?_some h

theorem mem_of_lookupRow {l : List Row} {d : Nat} {r : Row}
    (h : lookupRow l d = some r) : r ∈ l :=
  List.mem_of_find?_eq_some h

theorem lookupRow_eq_none {l : List Row} {d : Nat} :
    lookupRow l d = none ↔ ∀ r ∈ l, r.date ≠ d := by
  constructor
  · intro h r hr
    have := List.find?_eq_none.mp h r hr
    simpa using this
  · intro h
    exact List.find?_eq_none.mpr (fun x hx => by simpa using h x hx)

theorem lookup_setRow (l : List Row) (r : Row) (d : Nat) :
    lookupRow (setRow l r) d = if r.date = d then some r else lookupRow l d := by
  induction l with
  | nil =>
    by_cases h : r.date = d <;> simp [setRow, lookupRow_cons, lookupRow_nil, h]
  | cons x xs ih =>
    by_cases hx : x.date = r.date
    · rw [setRow, if_pos hx, lookupRow_cons, lookupRow_cons]
      by_cases h : r.date = d
      · rw [if_pos h, if_pos h]
      · rw [if_neg h, if_neg h, if_neg (by omega)]
    · rw [setRow, if_neg hx, lookupRow_cons, lookupRow_cons, ih]
      by_cases h : r.date = d
      · rw [if_pos h, if_pos h, if_neg (by omega)]
      · rw [if_neg h, if_neg h]

theorem mem_setRow {r y : Row} : ∀ {l : List Row}, y ∈ setRow l r → y = r ∨ y ∈ l := by
  intro l
  induction l with
  | nil =>
    intro h
    simpa [setRow] using h
  | cons x xs ih =>
    intro h
    by_cases hx : x.date = r.date
    · rw [setRow, if_pos hx] at h
      cases h with
      | head => exact .inl rfl
      | tail _ h => exact .inr (.tail _ h)
    · rw [setRow, if_neg hx] at h
      cases h with
      | head => exact .inr (.head _)
      | tail _ h =>
        rcases ih h with h' | h'
        · exact .inl h'
        · exact .inr (.tail _ h')

theorem setRow_pairwise (r : Row) : ∀ {l : List Row},
    List.Pairwise (fun x y : Row => x.date ≠ y.date) l →
    List.Pairwise (fun x y : Row => x.date ≠ y.date) (setRow l r) := by
  intro l
  induction l with
  | nil =>
    intro _
    simp [setRow]
  | cons x xs ih =>
    intro h
    rcases List.pairwise_cons.mp h with ⟨hx, hxs⟩
    by_cases hd : x.date = r.date
    · rw [setRow, if_pos hd]
      refine List.pairwise_cons.mpr ⟨fun y hy => ?_, hxs⟩
      have := hx y hy
      omega
    · rw [setRow, if_neg hd]
      refine List.pairwise_cons.mpr ⟨fun y hy => ?_, ih hxs⟩
      rcases mem_setRow hy with h' | h'
      · subst h'
        omega
      · exact hx y h'

theorem ofirst_assoc (a b c : Option Row) :
    ofirst (ofirst a b) c = ofirst a (ofirst b c) := by
  cases a <;> rfl

theorem ofirst_none (a : Option Row) : ofirst a none = a := by
  cases a <;> rfl

theorem lookup_append (u v : List Row) (d : Nat) :
    lookupRow (u ++ v) d = ofirst (lookupRow u d) (lookupRow v d) := by
  induction u with
  | nil => simp [lookupRow_nil, ofirst]
  | cons x xs ih =>
    rw [List.cons_append, lookupRow_cons, lookupRow_cons]
    by_cases h : x.date = d
    · rw [if_pos h, if_pos h]
      rfl
    · rw [if_neg h, if_neg h, ih]

theorem lastRow_nil (d : Nat) : lastRow [] d = none := rfl

theorem lastRow_cons (x : Row) (xs : List Row) (d : Nat) :
    lastRow (x :: xs) d = ofirst (lastRow xs d) (if x.date = d then some x else none) := by
  rw [lastRow, List.reverse_cons, lookup_append, lastRow]
  congr 1
  rw [lookupRow_cons, lookupRow_nil]

theorem foldl_setRow_lookup (l : List Row) : ∀ (init : List Row) (d : Nat),
    lookupRow (List.foldl setRow init l) d = ofirst (lastRow l d) (lookupRow init d) := by
  induction l with
  | nil =>
    intro init d
    simp [lastRow_nil, ofirst]
  | cons x xs ih =>
    intro init d
    rw [List.foldl_cons, ih, lookup_setRow, lastRow_cons, ofirst_assoc]
    congr 1
    by_cases h : x.date = d <;> simp [ofirst, h]

theorem foldl_setRow_pairwise (l : List Row) : ∀ {init : List Row},
    List.Pairwise (fun x y : Row => x.date ≠ y.date) init →
    List.Pairwise (fun x y : Row => x.date ≠ y.date) (List.foldl setRow init l) := by
  induction l with
  | nil =>
    intro init h
    simpa using h
  | cons x xs ih =>
    intro init h
    exact ih (setRow_pairwise x h)

theorem lookupRow_eq_some_iff (d : Nat) (r : Row) : ∀ {l : List Row},
    List.Pairwise (fun x y : Row => x.date ≠ y.date) l →
    (lookupRow l d = some r ↔ r ∈ l ∧ r.date = d) := by
  intro l
  induction l with
  | nil =>
    intro _
    simp [lookupRow_nil]
  | cons x xs ih =>
    intro h
    rcases List.pairwise_cons.mp h with ⟨hx, hxs⟩
    rw [lookupRow_cons]
    by_cases hd : x.date = d
    · rw [if_pos hd]
      constructor
      · intro he
        cases he
        exact ⟨.head _, hd⟩
      · rintro ⟨hm, hrd⟩
        cases hm with
        | head => rfl
        | tail _ hm => exact absurd (show x.date = r.date by omega) (hx r hm)
    · rw [if_neg hd, ih hxs]
      constructor
      · rintro ⟨hm, hrd⟩
        exact ⟨.tail _ hm, hrd⟩
      · rintro ⟨hm, hrd⟩
        cases hm with
        | head => exact absurd hrd hd
        | tail _ hm => exact ⟨hm, hrd⟩

theorem lookupRow_perm {l l' : List Row} (hp : l.Perm l')
    (h : List.Pairwise (fun x y : Row => x.date ≠ y.date) l) (d : Nat) :
    lookupRow l d = lookupRow l' d := by
  have h' : List.Pairwise (fun x y : Row => x.date ≠ y.date) l' :=
    (hp.pairwise_iff (fun hxy => hxy ∘ Eq.symm)).mp h
  cases e : lookupRow l d with
  | none =>
    rw [lookupRow_eq_none] at e
    exact ((lookupRow_eq_none).mpr (fun r hr => e r (hp.mem_iff.mpr hr))).symm
  | some r =>
    have hm := (lookupRow_eq_some_iff d r h).mp e
    exact ((lookupRow_eq_some_iff d r h').mpr ⟨hp.mem_iff.mp hm.1, hm.2⟩).symm

theorem insertSorted_perm (r : Row) (l : List Row) :
    (insertSorted r l).Perm (r :: l) := by
  induction l with
  | nil => exact .refl _
  | cons x xs ih =>
    rw [insertSorted]
    by_cases h : r.date < x.date
    · rw [if_pos h]
    · rw [if_neg h]
      exact .trans (.cons x ih) (List.Perm.swap r x xs)

theorem sortRows_perm (l : List Row) : (sortRows l).Perm l := by
  induction l with
  | nil => exact .refl _
  | cons x xs ih =>
    exact .trans (insertSorted_perm x (sortRows xs)) (.cons x ih)

theorem insertSorted_sortedLe (r : Row) : ∀ {l : List Row},
    List.Pairwise (fun x y : Row => x.date ≤ y.date) l →
    List.Pairwise (fun x y : Row => x.date ≤ y.date) (insertSorted r l) := by
  intro l
  induction l with
  | nil =>
    intro _
    simp [insertSorted]
  | cons x xs ih =>
    intro h
    rcases List.pairwise_cons.mp h with ⟨hx, hxs⟩
    rw [insertSorted]
    by_cases hd : r.date < x.date
    · rw [if_pos hd]
      refine List.pairwise_cons.mpr ⟨fun y hy => ?_, h⟩
      cases hy with
      | head => omega
      | tail _ hy =>
        have := hx y hy
        omega
    · rw [if_neg hd]
      refine List.pairwise_cons.mpr ⟨fun y hy => ?_, ih hxs⟩
      cases (insertSorted_perm r xs).mem_iff.mp hy with
      | head => omega
      | tail _ hym => exact hx y hym

theorem sortRows_sortedLe (l : List Row) :
    List.Pairwise (fun x y : Row => x.date ≤ y.date) (sortRows l) := by
  induction l with
  | nil => simp [sortRows]
  | cons x xs ih => exact insertSorted_sortedLe x ih

theorem sortRows_eq_self : ∀ {l : List Row},
    List.Pairwise (fun x y : Row => x.date < y.date) l → sortRows l = l := by
  intro l
  induction l with
  | nil =>
    intro _
    rfl
  | cons x xs ih =>
    intro h
    rcases List.pairwise_cons.mp h with ⟨hx, hxs⟩
    have hstep : sortRows (x :: xs) = insertSorted x (sortRows xs) := rfl
    rw [hstep, ih hxs]
    cases xs with
    | nil => rfl
    | cons y ys => rw [insertSorted, if_pos (hx y (.head _))]

theorem setRow_absent {r : Row} : ∀ {l : List Row},
    (∀ y ∈ l, y.date ≠ r.date) → setRow l r = l ++ [r] := by
  intro l
  induction l with
  | nil =>
    intro _
    rfl
  | cons x xs ih =>
    intro h
    rw [setRow, if_neg (h x (.head _)), ih (fun y hy => h y (.tail _ hy))]
    rfl

theorem foldl_setRow_fresh : ∀ (l init : List Row),
    List.Pairwise (fun x y : Row => x.date ≠ y.date) (init ++ l) →
    List.foldl setRow init l = init ++ l := by
  intro l
  induction l with
  | nil =>
    intro init _
    simp
  | cons x xs ih =>
    intro init h
    have hparts := List.pairwise_append.mp h
    have h1 : ∀ y ∈ init, y.date ≠ x.date := fun y hy => hparts.2.2 y hy x (.head _)
    have h2 : List.Pairwise (fun x y : Row => x.date ≠ y.date) ((init ++ [x]) ++ xs) := by
      simpa [List.append_assoc] using h
    rw [List.foldl_cons, setRow_absent h1, ih _ h2, List.append_assoc]
    rfl

theorem setRow_mem_id {r : Row} : ∀ {l : List Row},
    List.Pairwise (fun x y : Row => x.date ≠ y.date) l → r ∈ l → setRow l r = l := by
  intro l
  induction l with
  | nil =>
    intro _ hr
    cases hr
  | cons x xs ih =>
    intro h hr
    rcases List.pairwise_cons.mp h with ⟨hx, hxs⟩
    by_cases hd : x.date = r.date
    · rw [setRow, if_pos hd]
      cases hr with
      | head => rfl
      | tail _ hm => exact absurd hd (hx r hm)
    · rw [setRow, if_neg hd]
      cases hr with
      | head => exact absurd rfl hd
      | tail _ hm => rw [ih hxs hm]

theorem foldl_setRow_id {a : List Row}
    (hnd : List.Pairwise (fun x y : Row => x.date ≠ y.date) a) : ∀ {l : List Row},
    (∀ r ∈ l, r ∈ a) → List.foldl setRow a l = a := by
  intro l
  induction l with
  | nil =>
    intro _
    rfl
  | cons x xs ih =>
    intro hsub
    rw [List.foldl_cons, setRow_mem_id hnd (hsub x (.head _))]
    exact ih (fun r hr => hsub r (.tail _ hr))

/-- C4: `merge(a, b)` holds, for every date present in either input, exactly
the record a last-write-wins map would store — the one from `b` whenever the
date occurs in both inputs — and the result is sorted strictly ascending by
date with no duplicate dates. -/
theorem mergeRows_spec (a b : List Row) :
    List.Pairwise (fun x y : Row => x.date < y.date) (mergeRows a b)
    ∧ (∀ d, lookupRow (mergeRows a b) d = ofirst (lastRow b d) (lastRow a d))
    ∧ (∀ r : Row, r ∈ mergeRows a b ↔ ofirst (lastRow b r.date) (lastRow a r.date) = some r) := by
  have hnd_m : List.Pairwise (fun x y : Row => x.date ≠ y.date)
      (List.foldl setRow (List.foldl setRow [] a) b) :=
    foldl_setRow_pairwise b (foldl_setRow_pairwise a (by simp))
  have hperm : (mergeRows a b).Perm (List.foldl setRow (List.foldl setRow [] a) b) :=
    sortRows_perm _
  have hnd : List.Pairwise (fun x y : Row => x.date ≠ y.date) (mergeRows a b) :=
    (hperm.pairwise_iff (fun hxy => hxy ∘ Eq.symm)).mpr hnd_m
  have hlook : ∀ d, lookupRow (mergeRows a b) d = ofirst (lastRow b d) (lastRow a d) := by
    intro d
    rw [lookupRow_perm hperm hnd d, foldl_setRow_lookup, foldl_setRow_lookup,
      lookupRow_nil, ofirst_none]
  refine ⟨?_, hlook, ?_⟩
  · have hle : List.Pairwise (fun x y : Row => x.date ≤ y.date) (mergeRows a b) :=
      sortRows_sortedLe _
    exact (hle.and hnd).imp (fun hab => by omega)
  · intro r
    constructor
    · intro hm
      rw [← hlook r.date]
      exact (lookupRow_eq_some_iff r.date r hnd).mpr ⟨hm, rfl⟩
    · intro he
      rw [← hlook r.date] at he
      exact mem_of_lookupRow he

/-- C5: merging a normalized (deduplicated, strictly date-sorted) series with
itself is the identity. -/
theorem mergeRows_idem (a : List Row)
    (h : List.Pairwise (fun x y : Row => x.date < y.date) a) :
    mergeRows a a = a := by
  have hnd : List.Pairwise (fun x y : Row => x.date ≠ y.date) a :=
    h.imp (fun hab => by omega)
  have h0 : List.foldl setRow [] a = a := by
    simpa using foldl_setRow_fresh a [] (by simpa using hnd)
  rw [mergeRows, h0, foldl_setRow_id hnd (fun r hr => hr), sortRows_eq_self h]

/-- Witness for C5 at a concrete normalized series. -/
theorem mergeRows_idem_witness :
    List.Pairwise (fun x y : Row => x.date < y.date) [(⟨1, 2, 3⟩ : Row), ⟨2, 4, 5⟩]
    ∧ mergeRows [(⟨1, 2, 3⟩ : Row), ⟨2, 4, 5⟩] [(⟨1, 2, 3⟩ : Row), ⟨2, 4, 5⟩]
        = [(⟨1, 2, 3⟩ : Row), ⟨2, 4, 5⟩] :=
  ⟨by decide, mergeRows_idem _ (by decide)⟩

/-! ### Gap-detection correctness (C2) -/

theorem getLastD_range' : ∀ (n s d : Nat), n ≠ 0 → (List.range' s n).getLastD d = s + n - 1 := by
  intro n
  induction n with
  | zero =>
    intro s d h
    exact absurd rfl h
  | succ m ih =>
    intro s d _
    rw [List.range'_succ, List.getLastD_cons]
    cases m with
    | zero => simp
    | succ k =>
      rw [ih (s + 1) s (by omega)]
      omega

theorem missingRangesGo_spec (hv : Nat → Bool) (L : Nat) :
    ∀ (n s : Nat) (st : Option Nat), L + 1 = s + n → (∀ rs, st = some rs → rs < s) →
      ((missingRangesGo hv L (List.range' s n) st).flatMap toRange
          = stRange s st ++ (List.range' s n).filter (fun d => !hv d))
      ∧ List.Chain' (fun p q : Nat × Nat => p.2 + 1 < q.1)
          (missingRangesGo hv L (List.range' s n) st)
      ∧ ∀ p ∈ missingRangesGo hv L (List.range' s n) st,
          stBase s st ≤ p.1 ∧ p.1 ≤ p.2 ∧ p.2 + 1 ≤ s + n := by
  intro n
  induction n with
  | zero =>
    intro s st hL hst
    cases st with
    | none => exact ⟨rfl, List.chain'_nil, by intro p hp; cases hp⟩
    | some rs =>
      have hrs : rs < s := hst rs rfl
      have hLs : L + 1 = s := by omega
      refine ⟨?_, List.chain'_singleton _, ?_⟩
      · show toRange (rs, L) ++ [] = stRange s (some rs) ++ List.filter _ []
        rw [toRange, stRange]
        simp only [List.filter_nil, List.append_nil]
        congr 1
        omega
      · intro p hp
        cases hp with
        | head => exact ⟨Nat.le_refl _, by simp only; omega, by simp only; omega⟩
        | tail _ hp => cases hp
  | succ m ih =>
    intro s st hL hst
    have hL' : L + 1 = (s + 1) + m := by omega
    rw [List.range'_succ]
    cases st with
    | none =>
      by_cases hs : hv s
      · have hgo : missingRangesGo hv L (s :: List.range' (s + 1) m) none
            = missingRangesGo hv L (List.range' (s + 1) m) none := by
          rw [missingRangesGo, if_pos hs]
        rcases ih (s + 1) none hL' (by intro rs h; cases h) with ⟨hb, hc, hm⟩
        rw [stRange] at hb
        refine ⟨?_, ?_, ?_⟩
        · rw [hgo, hb, List.filter_cons, if_neg (by simp [hs]), stRange]
        · rw [hgo]
          exact hc
        · intro p hp
          rw [hgo] at hp
          rcases hm p hp with ⟨h1, h2, h3⟩
          simp only [stBase] at h1 ⊢
          exact ⟨by omega, h2, by omega⟩
      · have hgo : missingRangesGo hv L (s :: List.range' (s + 1) m) none
            = missingRangesGo hv L (List.range' (s + 1) m) (some s) := by
          rw [missingRangesGo, if_neg hs]
        rcases ih (s + 1) (some s) hL' (by intro rs h; cases h; omega) with ⟨hb, hc, hm⟩
        rw [stRange, show s + 1 - s = 1 from by omega, List.range'_one] at hb
        refine ⟨?_, ?_, ?_⟩
        · rw [hgo, hb, List.filter_cons, if_pos (by simp [hs]), stRange]
          rfl
        · rw [hgo]
          exact hc
        · intro p hp
          rw [hgo] at hp
          rcases hm p hp with ⟨h1, h2, h3⟩
          simp only [stBase] at h1 ⊢
          exact ⟨h1, h2, by omega⟩
    | some rs =>
      have hrs : rs < s := hst rs rfl
      by_cases hs : hv s
      · have hgo : missingRangesGo hv L (s :: List.range' (s + 1) m) (some rs)
            = (rs, prevDay s) :: missingRangesGo hv L (List.range' (s + 1) m) none := by
          rw [missingRangesGo, if_pos hs]
        rcases ih (s + 1) none hL' (by intro rs' h; cases h) with ⟨hb, hc, hm⟩
        rw [stRange] at hb
        refine ⟨?_, ?_, ?_⟩
        · rw [hgo, List.flatMap_cons, hb, List.filter_cons, if_neg (by simp [hs]),
            stRange, List.nil_append]
          congr 1
          rw [toRange, prevDay]
          congr 1
          omega
        · rw [hgo, List.chain'_cons']
          refine ⟨?_, hc⟩
          intro q hq
          rcases hm q (List.mem_of_mem_head? hq) with ⟨h1, h2, h3⟩
          simp only [stBase] at h1
          show (rs, prevDay s).2 + 1 < q.1
          rw [prevDay]
          omega
        · intro p hp
          rw [hgo] at hp
          cases hp with
          | head =>
            simp only [stBase]
            refine ⟨Nat.le_refl _, ?_, ?_⟩ <;> · rw [prevDay]; omega
          | tail _ hp =>
            rcases hm p hp with ⟨h1, h2, h3⟩
            simp only [stBase] at h1 ⊢
            exact ⟨by omega, h2, by omega⟩
      · have hgo : missingRangesGo hv L (s :: List.range' (s + 1) m) (some rs)
            = missingRangesGo hv L (List.range' (s + 1) m) (some rs) := by
          rw [missingRangesGo, if_neg hs]
        rcases ih (s + 1) (some rs) hL' (by intro rs' h; cases h; omega) with ⟨hb, hc, hm⟩
        rw [stRange] at hb
        refine ⟨?_, ?_, ?_⟩
        · rw [hgo, hb, List.filter_cons, if_pos (by simp [hs]), stRange]
          have hr2 : List.range' rs (s + 1 - rs) = List.range' rs (s - rs) ++ [s] := by
            rw [show s + 1 - rs = (s - rs) + 1 from by omega, List.range'_concat]
            congr 2
            omega
          rw [hr2, List.append_assoc]
          rfl
        · rw [hgo]
          exact hc
        · intro p hp
          rw [hgo] at hp
          rcases hm p hp with ⟨h1, h2, h3⟩
          simp only [stBase] at h1 ⊢
          exact ⟨h1, h2, by omega⟩

/-- C2: over any requested window `[s, e]` and any cached-date predicate `hv`,
the computed gaps cover exactly the enumerated days absent from the cache (in
ascending order), consecutive gaps are separated by at least one present day
(so each gap is maximal), every gap is a well-formed sub-range of the window —
and on the window `d1..d5` with `{d1, d3, d5}` cached the gaps are exactly the
two single-day runs at `d2` and `d4`. -/
theorem missingRanges_gaps (s e : Nat) (hv : Nat → Bool) :
    ((missingRanges (enumerateDates s e) hv).flatMap toRange
        = (enumerateDates s e).filter (fun d => !hv d))
    ∧ List.Chain' (fun p q : Nat × Nat => p.2 + 1 < q.1) (missingRanges (enumerateDates s e) hv)
    ∧ (∀ p ∈ missingRanges (enumerateDates s e) hv, s ≤ p.1 ∧ p.1 ≤ p.2 ∧ p.2 ≤ e)
    ∧ missingRanges (enumerateDates 1 5) (fun d => d == 1 || d == 3 || d == 5)
        = [(2, 2), (4, 4)] := by
  have hex : missingRanges (enumerateDates 1 5) (fun d => d == 1 || d == 3 || d == 5)
      = [(2, 2), (4, 4)] := by decide
  by_cases hse : s ≤ e
  · have hn : e + 1 - s ≠ 0 := by omega
    have hlast : (enumerateDates s e).getLastD 0 = e := by
      rw [enumerateDates, getLastD_range' _ _ _ hn]
      omega
    have hmain := missingRangesGo_spec hv e (e + 1 - s) s none (by omega)
      (by intro rs h; cases h)
    rw [missingRanges, hlast]
    rcases hmain with ⟨hb, hc, hm⟩
    rw [stRange] at hb
    refine ⟨?_, hc, ?_, hex⟩
    · rw [enumerateDates, hb]
      rfl
    · intro p hp
      rcases hm p hp with ⟨h1, h2, h3⟩
      simp only [stBase] at h1
      exact ⟨h1, h2, by omega⟩
  · have hn : e + 1 - s = 0 := by omega
    have hnil : enumerateDates s e = [] := by
      rw [enumerateDates, hn]
      rfl
    rw [missingRanges, hnil]
    exact ⟨rfl, List.chain'_nil, (by intro p hp; cases hp), hex⟩

/-- Witness for C2 instantiated at the spec's `{d1, d3, d5}` example. -/
theorem missingRanges_gaps_witness :
    missingRanges (enumerateDates 1 5) (fun d => d == 1 || d == 3 || d == 5)
      = [(2, 2), (4, 4)] :=
  (missingRanges_gaps 1 5 (fun d => d == 1 || d == 3 || d == 5)).2.2.2

/-! ### Retry-policy correctness (C3) -/

theorem fetchAttempt_retry {i delay : Nat} {r : HttpResp}
    (h : fetchAttempt 5 700 i r = .retry delay) :
    retryable r ∧ delay = fetchStepDelay 700 i r ∧ i < 5 := by
  unfold fetchAttempt at h
  by_cases hok : respOk r
  · rw [if_pos hok] at h
    cases hj : r.goodJson with
    | none =>
      rw [hj, fetchAttemptOk] at h
      cases h
    | some j =>
      rw [hj, fetchAttemptOk] at h
      by_cases hsucc : j.success
      · rw [if_pos hsucc] at h
        cases h
      · rw [if_neg hsucc] at h
        by_cases hcond : (j.rateLimited && decide (i < 5)) = true
        · rw [if_pos hcond] at h
          have hparts : j.rateLimited = true ∧ i < 5 := by simpa using hcond
          cases h
          exact ⟨Or.inl ⟨hok, j, hj, Bool.eq_false_iff.mpr hsucc, hparts.1⟩, rfl, hparts.2⟩
        · rw [if_neg hcond] at h
          cases h
  · rw [if_neg hok] at h
    by_cases hcond : ((r.status == 429 || decide (500 ≤ r.status)) && decide (i < 5)) = true
    · rw [if_pos hcond] at h
      have hparts : (r.status = 429 ∨ 500 ≤ r.status) ∧ i < 5 := by simpa using hcond
      cases h
      exact ⟨Or.inr ⟨Bool.eq_false_iff.mpr hok, hparts.1⟩, rfl, hparts.2⟩
    · rw [if_neg hcond] at h
      cases h

theorem fetchAttempt_done {i : Nat} {r : HttpResp} {res : Except FetchErr ApiJson}
    (h : fetchAttempt 5 700 i r = .done res) (hle : i ≤ 5) :
    lastOutcome r i 5 res := by
  unfold fetchAttempt at h
  by_cases hok : respOk r
  · rw [if_pos hok] at h
    cases hj : r.goodJson with
    | none =>
      rw [hj, fetchAttemptOk] at h
      cases h
      exact Or.inl ⟨hok, hj, rfl⟩
    | some j =>
      rw [hj, fetchAttemptOk] at h
      by_cases hsucc : j.success
      · rw [if_pos hsucc] at h
        cases h
        exact Or.inr (Or.inl ⟨hok, j, hj, hsucc, rfl⟩)
      · rw [if_neg hsucc] at h
        by_cases hcond : (j.rateLimited && decide (i < 5)) = true
        · rw [if_pos hcond] at h
          cases h
        · rw [if_neg hcond] at h
          cases h
          refine Or.inr (Or.inr (Or.inl ⟨hok, j, hj, Bool.eq_false_iff.mpr hsucc, ?_, rfl⟩))
          by_cases hrl : j.rateLimited = true
          · have hni : ¬i < 5 := by
              intro hi
              exact hcond (by simp [hrl, hi])
            exact Or.inr (by omega)
          · exact Or.inl (Bool.eq_false_iff.mpr hrl)
  · rw [if_neg hok] at h
    have hokf : respOk r = false := Bool.eq_false_iff.mpr hok
    by_cases hcond : ((r.status == 429 || decide (500 ≤ r.status)) && decide (i < 5)) = true
    · rw [if_pos hcond] at h
      cases h
    · rw [if_neg hcond] at h
      cases h
      by_cases hst : r.status = 429 ∨ 500 ≤ r.status
      · have hni : ¬i < 5 := by
          intro hi
          refine hcond ?_
          rcases hst with h1 | h1
          · simp [h1, hi]
          · simp [h1, hi]
        exact Or.inr (Or.inr (Or.inr (Or.inl ⟨hokf, hst, by omega, rfl⟩)))
      · push_neg at hst
        exact Or.inr (Or.inr (Or.inr (Or.inr ⟨hokf, hst.1, by omega, rfl⟩)))

theorem fetchGo_acc (responses : Nat → HttpResp) (attempts baseDelayMs : Nat) :
    ∀ (fuel i thr : Nat) (acc : List Nat),
      fetchGo responses attempts baseDelayMs fuel i acc thr
        = ⟨(fetchGo responses attempts baseDelayMs fuel i [] thr).result,
           acc.reverse ++ (fetchGo responses attempts baseDelayMs fuel i [] thr).waits,
           (fetchGo responses attempts baseDelayMs fuel i [] thr).used,
           (fetchGo responses attempts baseDelayMs fuel i [] thr).throttle⟩ := by
  intro fuel
  induction fuel with
  | zero =>
    intro i thr acc
    simp [fetchGo]
  | succ m ih =>
    intro i thr acc
    cases hstep : fetchAttempt attempts baseDelayMs i (responses i) with
    | done res => simp [fetchGo, hstep]
    | retry delay =>
      simp only [fetchGo, hstep]
      rw [ih (i + 1) (bumpThrottle thr delay) (delay :: acc),
        ih (i + 1) (bumpThrottle thr delay) [delay]]
      simp

theorem fetchGo_spec (responses : Nat → HttpResp) :
    ∀ (fuel i thr : Nat), 1 ≤ i → i ≤ 5 → fuel + i = 6 →
      (i ≤ (fetchGo responses 5 700 fuel i [] thr).used
        ∧ (fetchGo responses 5 700 fuel i [] thr).used ≤ 5)
      ∧ (fetchGo responses 5 700 fuel i [] thr).waits.length + i
          = (fetchGo responses 5 700 fuel i [] thr).used
      ∧ (∀ k, k < (fetchGo responses 5 700 fuel i [] thr).waits.length →
          (fetchGo responses 5 700 fuel i [] thr).waits.getD k 0
            = fetchStepDelay 700 (i + k) (responses (i + k))
          ∧ retryable (responses (i + k)))
      ∧ lastOutcome (responses (fetchGo responses 5 700 fuel i [] thr).used)
          (fetchGo responses 5 700 fuel i [] thr).used 5
          (fetchGo responses 5 700 fuel i [] thr).result := by
  intro fuel
  induction fuel with
  | zero =>
    intro i thr h1 h5 hf
    omega
  | succ m ih =>
    intro i thr h1 h5 hf
    cases hstep : fetchAttempt 5 700 i (responses i) with
    | done res =>
      simp only [fetchGo, hstep, List.reverse_nil]
      refine ⟨⟨Nat.le_refl _, h5⟩, by simp, ?_, fetchAttempt_done hstep h5⟩
      intro k hk
      simp at hk
    | retry delay =>
      rcases fetchAttempt_retry hstep with ⟨hra, hdeq, hlt⟩
      simp only [fetchGo, hstep]
      rw [fetchGo_acc responses 5 700 m (i + 1) (bumpThrottle thr delay) [delay]]
      dsimp only
      rcases ih (i + 1) (bumpThrottle thr delay) (by omega) (by omega) (by omega)
        with ⟨⟨hu1, hu2⟩, hlen, hwk, hlast⟩
      refine ⟨⟨by omega, hu2⟩, by simp; omega, ?_, hlast⟩
      intro k hk
      cases k with
      | zero =>
        constructor
        · simpa using hdeq
        · simpa using hra
      | succ k' =>
        have hk' : k' < (fetchGo responses 5 700 m (i + 1) [] (bumpThrottle thr delay)).waits.length := by
          simp at hk
          omega
        rcases hwk k' hk' with ⟨hd, hr⟩
        have harith : i + (k' + 1) = (i + 1) + k' := by omega
        rw [harith]
        exact ⟨by simpa using hd, hr⟩

/-- C3: a `fetchJsonWithRetry` call makes at most 5 attempts; every backoff
before retrying attempt `k + 1` waits exactly
`max(serverRetryAfterSeconds * 1000, 700 * 2^k)` ms and happens only on a 429,
a 5xx, or an API-reported rate-limited condition inside a 2xx response; and
the terminating attempt obeys `lastOutcome` — in particular any other non-2xx
status fails immediately with the response body attached, and a 2xx response
with malformed JSON fails immediately without retry. -/
theorem fetchJsonWithRetry_policy (responses : Nat → HttpResp) (thr : Nat) :
    (1 ≤ (fetchJsonWithRetry responses 5 700 thr).used
      ∧ (fetchJsonWithRetry responses 5 700 thr).used ≤ 5)
    ∧ (fetchJsonWithRetry responses 5 700 thr).waits.length + 1
        = (fetchJsonWithRetry responses 5 700 thr).used
    ∧ (∀ k, k < (fetchJsonWithRetry responses 5 700 thr).waits.length →
        (fetchJsonWithRetry responses 5 700 thr).waits.getD k 0
          = max (retryAfterMs (responses (k + 1))) (700 * 2 ^ k)
        ∧ retryable (responses (k + 1)))
    ∧ lastOutcome (responses (fetchJsonWithRetry responses 5 700 thr).used)
        (fetchJsonWithRetry responses 5 700 thr).used 5
        (fetchJsonWithRetry responses 5 700 thr).result := by
  unfold fetchJsonWithRetry
  rcases fetchGo_spec responses 5 1 thr (Nat.le_refl 1) (by omega) (by omega)
    with ⟨hu, hlen, hwk, hlast⟩
  refine ⟨hu, hlen, ?_, hlast⟩
  intro k hk
  rcases hwk k hk with ⟨hd, hr⟩
  have harith : 1 + k = k + 1 := by omega
  rw [harith] at hd hr
  refine ⟨?_, hr⟩
  rw [hd, fetchStepDelay]
  congr 1

/-- Witness for C3 at a concrete script: first attempt 429 with
`Retry-After: 2`, second attempt a clean 200. -/
theorem fetchJsonWithRetry_policy_witness :
    retryable (⟨429, some 2, none, "slow down"⟩ : HttpResp)
    ∧ (fetchJsonWithRetry
        (fun i => if i = 1 then ⟨429, some 2, none, "slow down"⟩
                  else ⟨200, none, some ⟨true, false, ""⟩, ""⟩) 5 700 500).used ≤ 5
    ∧ fetchJsonWithRetry
        (fun i => if i = 1 then ⟨429, some 2, none, "slow down"⟩
                  else ⟨200, none, some ⟨true, false, ""⟩, ""⟩) 5 700 500
        = ⟨.ok ⟨true, false, ""⟩, [2000], 2, 2000⟩ :=
  ⟨Or.inr ⟨rfl, Or.inl rfl⟩,
    (fetchJsonWithRetry_policy
      (fun i => if i = 1 then ⟨429, some 2, none, "slow down"⟩
                else ⟨200, none, some ⟨true, false, ""⟩, ""⟩) 500).1.2,
    by decide⟩

/-! ### History-assembler theorems (C6, C7) -/

/-- C6, counterexample: with `end < start` the part 004 assembler resolves
normally with an empty row list — it signals no validation error — and its
trace records that the CSV source was still requested over the network. -/
theorem loadMergedPrices_endBeforeStart_cex :
    (loadMergedPrices4 [⟨1, 1, 1⟩] (fun _ => (⟨500, ApiBody.noRates⟩ : ApiResp)) true 5 3).1
        = .ok []
    ∧ (loadMergedPrices4 [⟨1, 1, 1⟩] (fun _ => (⟨500, ApiBody.noRates⟩ : ApiResp)) true 5 3).2
        = ⟨true, []⟩ := by
  constructor <;> rfl

/-- C6, amended: for every input with `end < start` the assembler returns an
empty row list, resolves normally (no validation error is signalled), and
issues no API requests (the enumerated window and hence the gap list are
empty) — but the CSV source request is still issued. -/
theorem loadMergedPrices_endBeforeStart (csv : List Row) (api : Nat → ApiResp)
    (hasKey : Bool) (s e : Nat) (h : e < s) :
    loadMergedPrices4 csv api hasKey s e = (.ok [], ⟨true, []⟩) := by
  have hreq : enumerateDates s e = [] := by
    rw [enumerateDates, show e + 1 - s = 0 from by omega]
    rfl
  have hfin : finalizeRows (List.foldl setRow [] csv) s e = [] := by
    rw [finalizeRows]
    have hnil : (List.foldl setRow [] csv).filter
        (fun r => decide (s ≤ r.date) && decide (r.date ≤ e)) = [] := by
      rw [List.filter_eq_nil_iff]
      intro r _
      simp only [Bool.and_eq_true, decide_eq_true_eq, not_and]
      omega
    rw [hnil]
    rfl
  simp only [loadMergedPrices4, hreq]
  have hga : missingRanges []
      (fun d => (lookupRow (List.foldl setRow [] csv) d).isSome) = [] := rfl
  rw [hga]
  simp only [List.isEmpty_nil, Bool.not_true, Bool.and_false, Bool.false_eq_true,
    if_false, hfin]

/-- Witness for the amended C6 theorem. -/
theorem loadMergedPrices_endBeforeStart_witness :
    (3 : Nat) < 5
    ∧ loadMergedPrices4 [] (fun _ => (⟨200, ApiBody.noRates⟩ : ApiResp)) false 5 3
        = (.ok [], ⟨true, []⟩) :=
  ⟨by omega, loadMergedPrices_endBeforeStart [] _ false 5 3 (by omega)⟩

theorem fillAbsent_preserve : ∀ (rows m : List Row) (d : Nat) (r : Row),
    lookupRow m d = some r → lookupRow (fillAbsent m rows) d = some r := by
  intro rows
  induction rows with
  | nil =>
    intro m d r h
    exact h
  | cons x xs ih =>
    intro m d r h
    show lookupRow (List.foldl _ _ (x :: xs)) d = some r
    rw [List.foldl_cons]
    by_cases hx : (lookupRow m x.date).isSome
    · rw [if_pos hx]
      exact ih m d r h
    · rw [if_neg hx]
      refine ih _ d r ?_
      rw [lookup_setRow]
      have hne : x.date ≠ d := by
        intro hxd
        rw [hxd, h] at hx
        exact hx rfl
      rw [if_neg hne]
      exact h

theorem chunkGo3_preserve (api : Nat → ApiResp) :
    ∀ (fuel cur endT k : Nat) (m : List Row) (log : List (Nat × Nat)) (d : Nat) (r : Row),
      lookupRow m d = some r →
      lookupRow (chunkGo3 api fuel cur endT k m log).1 d = some r := by
  intro fuel
  induction fuel with
  | zero =>
    intro cur endT k m log d r h
    exact h
  | succ f ih =>
    intro cur endT k m log d r h
    rw [chunkGo3]
    by_cases hc : cur ≤ endT
    · rw [if_pos hc]
      exact ih _ _ _ _ _ d r (fillAbsent_preserve _ _ d r h)
    · rw [if_neg hc]
      exact h

theorem gapLoop3_preserve (api : Nat → ApiResp) :
    ∀ (gaps : List (Nat × Nat)) (k : Nat) (m : List Row) (log : List (Nat × Nat))
      (d : Nat) (r : Row),
      lookupRow m d = some r →
      lookupRow (gapLoop3 api gaps k m log).1 d = some r := by
  intro gaps
  induction gaps with
  | nil =>
    intro k m log d r h
    exact h
  | cons g rest ih =>
    intro k m log d r h
    rcases g with ⟨gs, ge⟩
    rcases hcg : chunkGo3 api (ge + 1 - gs) gs ge k m log with ⟨m', k', log'⟩
    rw [gapLoop3, hcg]
    refine ih k' m' log' d r ?_
    have := chunkGo3_preserve api (ge + 1 - gs) gs ge k m log d r h
    rw [hcg] at this
    exact this

theorem finalizeRows_mem {m : List Row} {r : Row} (h1 : r ∈ m) (s e : Nat)
    (h2 : s ≤ r.date) (h3 : r.date ≤ e) : r ∈ finalizeRows m s e := by
  rw [finalizeRows]
  refine (sortRows_perm _).mem_iff.mpr ?_
  rw [List.mem_filter]
  refine ⟨h1, ?_⟩
  simp only [Bool.and_eq_true, decide_eq_true_eq]
  omega

/-- C7, amended (part 003 variant): the assembler is total — every fetch
failure is absorbed as an empty chunk — and every record the CSV source put in
the map whose date lies in the window is returned, regardless of the API
script. -/
theorem loadMergedPrices3_keepsCsv (csv : List Row) (api : Nat → ApiResp)
    (hasKey : Bool) (s e d : Nat) (r : Row) (hlast : lastRow csv d = some r)
    (hs : s ≤ d) (he : d ≤ e) :
    r ∈ (loadMergedPrices3 csv api hasKey s e).1 := by
  have hrd : r.date = d := lookupRow_date_eq hlast
  have hm0 : lookupRow (List.foldl setRow [] csv) d = some r := by
    rw [foldl_setRow_lookup, lookupRow_nil, ofirst_none, hlast]
  simp only [loadMergedPrices3]
  by_cases hbr : (hasKey && !(missingRanges (enumerateDates s e)
      (fun d => (lookupRow (List.foldl setRow [] csv) d).isSome)).isEmpty) = true
  · rw [if_pos hbr]
    rcases hGL : gapLoop3 api (missingRanges (enumerateDates s e)
        (fun d => (lookupRow (List.foldl setRow [] csv) d).isSome)) 0
        (List.foldl setRow [] csv) [] with ⟨M, k', log'⟩
    dsimp only
    have hlk := gapLoop3_preserve api (missingRanges (enumerateDates s e)
        (fun d => (lookupRow (List.foldl setRow [] csv) d).isSome)) 0
        (List.foldl setRow [] csv) [] d r hm0
    rw [hGL] at hlk
    exact finalizeRows_mem (mem_of_lookupRow hlk) s e (by omega) (by omega)
  · rw [if_neg hbr]
    exact finalizeRows_mem (mem_of_lookupRow hm0) s e (by omega) (by omega)

/-- Witness for the amended C7 theorem: the CSV record survives even though
every API request fails with HTTP 500. -/
theorem loadMergedPrices3_keepsCsv_witness :
    lastRow [(⟨2, 5, 7⟩ : Row)] 2 = some ⟨2, 5, 7⟩
    ∧ (1 : Nat) ≤ 2 ∧ (2 : Nat) ≤ 3
    ∧ (⟨2, 5, 7⟩ : Row) ∈ (loadMergedPrices3 [⟨2, 5, 7⟩]
        (fun _ => (⟨500, ApiBody.noRates⟩ : ApiResp)) true 1 3).1 :=
  ⟨by decide, by omega, by omega,
    loadMergedPrices3_keepsCsv [⟨2, 5, 7⟩] _ true 1 3 2 ⟨2, 5, 7⟩ (by decide)
      (by omega) (by omega)⟩

/-- C7, counterexample (part 004 variant): one gap whose fetch answers
HTTP 500 makes the whole load reject with that error, discarding the CSV
record for day 1 instead of returning it. -/
theorem loadMergedPrices_gapFailure_cex :
    loadMergedPrices4 [⟨1, 2, 3⟩] (fun _ => (⟨500, ApiBody.noRates⟩ : ApiResp)) true 1 3
      = (.error (.httpErr 500 ""), ⟨true, []⟩) := by
  rfl

/-! ### Simulator theorems (C1, C10) -/

theorem simStep_heldMetal (g2s s2g : Option Rat) (sa gBH sBH : Rat) (st : SimState)
    (r : Row) (prevOpt : Option Rat) :
    (simStep g2s s2g sa gBH sBH st r prevOpt).2.heldMetal
      = (simStep g2s s2g sa gBH sBH st r prevOpt).1.held := rfl

theorem simStep_gsr (g2s s2g : Option Rat) (sa gBH sBH : Rat) (st : SimState)
    (r : Row) (prevOpt : Option Rat) :
    (simStep g2s s2g sa gBH sBH st r prevOpt).2.gsr = r.gold / r.silver := rfl

theorem simStep_gold (g2s s2g : Option Rat) (sa gBH sBH oz : Rat) (r : Row)
    (prevOpt : Option Rat) :
    (((simStep g2s s2g sa gBH sBH ⟨.gold, oz⟩ r prevOpt).2.switched = some .GtoS)
      ↔ crossUpCond g2s (r.gold / r.silver) prevOpt)
    ∧ (simStep g2s s2g sa gBH sBH ⟨.gold, oz⟩ r prevOpt).2.switched ≠ some .StoG := by
  cases hg : g2s with
  | none =>
    have hsw : (simStep none s2g sa gBH sBH ⟨.gold, oz⟩ r prevOpt).2.switched = none := by
      by_cases hsg : s2g = none
      · subst hsg
        rfl
      · simp only [simStep]
        rw [if_neg (by simp [hsg])]
    rw [hsw]
    refine ⟨?_, by simp⟩
    simp [crossUpCond]
  | some u =>
    by_cases hc : u ≤ r.gold / r.silver ∧ (prevOpt = none ∨ prevOpt.getD (r.gold / r.silver) < u)
    · have hsw : (simStep (some u) s2g sa gBH sBH ⟨.gold, oz⟩ r prevOpt).2.switched
          = some .GtoS := by
        simp only [simStep]
        rw [if_neg (by simp), if_pos hc]
      rw [hsw]
      refine ⟨⟨fun _ => ?_, fun _ => rfl⟩, by simp⟩
      refine ⟨u, rfl, hc.1, ?_⟩
      rcases hc.2 with h | h
      · exact Or.inl h
      · cases hp : prevOpt with
        | none => exact Or.inl rfl
        | some q =>
          rw [hp] at h
          exact Or.inr ⟨q, rfl, by simpa using h⟩
    · have hsw : (simStep (some u) s2g sa gBH sBH ⟨.gold, oz⟩ r prevOpt).2.switched
          = none := by
        simp only [simStep]
        rw [if_neg (by simp), if_neg hc]
      rw [hsw]
      refine ⟨⟨fun h => (nomatch h), fun hcr => ?_⟩, by simp⟩
      exfalso
      apply hc
      rcases hcr with ⟨u', h1, h2, h3⟩
      cases h1
      refine ⟨h2, ?_⟩
      rcases h3 with h3 | ⟨q, hq, hlt⟩
      · exact Or.inl h3
      · rw [hq]
        exact Or.inr (by simpa using hlt)

theorem simStep_silver (g2s s2g : Option Rat) (sa gBH sBH oz : Rat) (r : Row)
    (prevOpt : Option Rat) :
    (((simStep g2s s2g sa gBH sBH ⟨.silver, oz⟩ r prevOpt).2.switched = some .StoG)
      ↔ crossDownCond s2g (r.gold / r.silver) prevOpt)
    ∧ (simStep g2s s2g sa gBH sBH ⟨.silver, oz⟩ r prevOpt).2.switched ≠ some .GtoS := by
  cases hsg : s2g with
  | none =>
    have hsw : (simStep g2s none sa gBH sBH ⟨.silver, oz⟩ r prevOpt).2.switched = none := by
      by_cases hg : g2s = none
      · subst hg
        rfl
      · simp only [simStep]
        rw [if_neg (by simp [hg])]
    rw [hsw]
    refine ⟨?_, by simp⟩
    simp [crossDownCond]
  | some u =>
    by_cases hc : r.gold / r.silver ≤ u ∧ (prevOpt = none ∨ u < prevOpt.getD (r.gold / r.silver))
    · have hsw : (simStep g2s (some u) sa gBH sBH ⟨.silver, oz⟩ r prevOpt).2.switched
          = some .StoG := by
        simp only [simStep]
        rw [if_neg (by simp), if_pos hc]
      rw [hsw]
      refine ⟨⟨fun _ => ?_, fun _ => rfl⟩, by simp⟩
      refine ⟨u, rfl, hc.1, ?_⟩
      rcases hc.2 with h | h
      · exact Or.inl h
      · cases hp : prevOpt with
        | none => exact Or.inl rfl
        | some q =>
          rw [hp] at h
          exact Or.inr ⟨q, rfl, by simpa using h⟩
    · have hsw : (simStep g2s (some u) sa gBH sBH ⟨.silver, oz⟩ r prevOpt).2.switched
          = none := by
        simp only [simStep]
        rw [if_neg (by simp), if_neg hc]
      rw [hsw]
      refine ⟨⟨fun h => (nomatch h), fun hcr => ?_⟩, by simp⟩
      exfalso
      apply hc
      rcases hcr with ⟨u', h1, h2, h3⟩
      cases h1
      refine ⟨h2, ?_⟩
      rcases h3 with h3 | ⟨q, hq, hlt⟩
      · exact Or.inl h3
      · rw [hq]
        exact Or.inr (by simpa using hlt)

theorem simStep_stepCross (g2s s2g : Option Rat) (sa gBH sBH : Rat) (st : SimState)
    (r : Row) (prevOpt : Option Rat) :
    stepCross g2s s2g st.held (simStep g2s s2g sa gBH sBH st r prevOpt).2 prevOpt := by
  obtain ⟨held, oz⟩ := st
  cases held with
  | gold =>
    refine ⟨fun _ => ?_, fun hcontra => ?_⟩
    · rw [simStep_gsr]
      exact simStep_gold g2s s2g sa gBH sBH oz r prevOpt
    · cases hcontra
  | silver =>
    refine ⟨fun hcontra => ?_, fun _ => ?_⟩
    · cases hcontra
    · rw [simStep_gsr]
      exact simStep_silver g2s s2g sa gBH sBH oz r prevOpt

theorem simGo_spec (g2s s2g : Option Rat) (sa gBH sBH : Rat) :
    ∀ (rows : List Row) (st : SimState) (prevOpt : Option Rat) (out : List SimPoint),
      out = simGo g2s s2g sa gBH sBH st prevOpt rows →
      out.length = rows.length
      ∧ (∀ i, i < rows.length →
          (out.getD i dfltPoint).gsr
            = (rows.getD i dfltRow).gold / (rows.getD i dfltRow).silver)
      ∧ (∀ i, i < rows.length →
          stepCross g2s s2g
            (if i = 0 then st.held else (out.getD (i - 1) dfltPoint).heldMetal)
            (out.getD i dfltPoint)
            (if i = 0 then prevOpt else some ((out.getD (i - 1) dfltPoint).gsr))) := by
  intro rows
  induction rows with
  | nil =>
    intro st prevOpt out hout
    subst hout
    refine ⟨rfl, ?_, ?_⟩ <;> · intro i hi; exact absurd hi (by simp)
  | cons r rest ih =>
    intro st prevOpt out hout
    rw [simGo] at hout
    subst hout
    obtain ⟨ihlen, ihgsr, ihcross⟩ :=
      ih (simStep g2s s2g sa gBH sBH st r prevOpt).1 (some (r.gold / r.silver)) _ rfl
    refine ⟨by simp [ihlen], ?_, ?_⟩
    · intro i hi
      cases i with
      | zero =>
        simp only [List.getD_cons_zero]
        exact simStep_gsr g2s s2g sa gBH sBH st r prevOpt
      | succ j =>
        simp only [List.getD_cons_succ]
        exact ihgsr j (by simpa using hi)
    · intro i hi
      cases i with
      | zero =>
        rw [if_pos rfl, if_pos rfl, List.getD_cons_zero]
        exact simStep_stepCross g2s s2g sa gBH sBH st r prevOpt
      | succ j =>
        have hne : ¬(j + 1 = 0) := by omega
        simp only [Nat.add_sub_cancel]
        rw [if_neg hne, if_neg hne, List.getD_cons_succ]
        have hci := ihcross j (by simpa using hi)
        cases j with
        | zero =>
          rw [if_pos rfl, if_pos rfl] at hci
          rw [List.getD_cons_zero, simStep_heldMetal, simStep_gsr]
          exact hci
        | succ k =>
          have hne2 : ¬(k + 1 = 0) := by omega
          rw [if_neg hne2, if_neg hne2] at hci
          rw [List.getD_cons_succ]
          exact hci

theorem crossUpCond_first (g2s : Option Rat) (cur : Rat) :
    crossUpCond g2s cur none ↔ ∃ u, g2s = some u ∧ u ≤ cur := by
  constructor
  · rintro ⟨u, h1, h2, _⟩
    exact ⟨u, h1, h2⟩
  · rintro ⟨u, h1, h2⟩
    exact ⟨u, h1, h2, Or.inl rfl⟩

theorem crossUpCond_later (g2s : Option Rat) (cur q : Rat) :
    crossUpCond g2s cur (some q) ↔ ∃ u, g2s = some u ∧ u ≤ cur ∧ q < u := by
  constructor
  · rintro ⟨u, h1, h2, h3⟩
    rcases h3 with h3 | ⟨q', hq, hlt⟩
    · cases h3
    · cases hq
      exact ⟨u, h1, h2, hlt⟩
  · rintro ⟨u, h1, h2, h3⟩
    exact ⟨u, h1, h2, Or.inr ⟨q, rfl, h3⟩⟩

theorem crossDownCond_first (s2g : Option Rat) (cur : Rat) :
    crossDownCond s2g cur none ↔ ∃ u, s2g = some u ∧ cur ≤ u := by
  constructor
  · rintro ⟨u, h1, h2, _⟩
    exact ⟨u, h1, h2⟩
  · rintro ⟨u, h1, h2⟩
    exact ⟨u, h1, h2, Or.inl rfl⟩

theorem crossDownCond_later (s2g : Option Rat) (cur q : Rat) :
    crossDownCond s2g cur (some q) ↔ ∃ u, s2g = some u ∧ cur ≤ u ∧ u < q := by
  constructor
  · rintro ⟨u, h1, h2, h3⟩
    rcases h3 with h3 | ⟨q', hq, hlt⟩
    · cases h3
    · cases hq
      exact ⟨u, h1, h2, hlt⟩
  · rintro ⟨u, h1, h2, h3⟩
    exact ⟨u, h1, h2, Or.inr ⟨q, rfl, h3⟩⟩

/-- C1: in the simulation output, while holding gold a gold-to-silver switch
marker appears at step `i` iff an up-threshold `u` is configured,
`u ≤ ratio[i]`, and `i = 0` or `ratio[i-1] < u` — and no silver-to-gold
marker can appear while holding gold; symmetrically while holding silver.
Moreover on the ratio series `[86, 87]` with up-threshold 85, holding gold,
the switch fires at index 0. -/
theorem simulate_crossing (rows : List Row) (sd ed : Nat) (metal : Metal) (sa : Rat)
    (g2s s2g : Option Rat) :
    (∀ i, i < (simulate rows sd ed metal sa g2s s2g).length →
      (((if i = 0 then metal
          else ((simulate rows sd ed metal sa g2s s2g).getD (i - 1) dfltPoint).heldMetal)
            = .gold →
        ((((simulate rows sd ed metal sa g2s s2g).getD i dfltPoint).switched = some .GtoS)
          ↔ ∃ u, g2s = some u
              ∧ u ≤ ((simulate rows sd ed metal sa g2s s2g).getD i dfltPoint).gsr
              ∧ (i = 0
                  ∨ ((simulate rows sd ed metal sa g2s s2g).getD (i - 1) dfltPoint).gsr < u))
        ∧ ((simulate rows sd ed metal sa g2s s2g).getD i dfltPoint).switched ≠ some .StoG)
      ∧ ((if i = 0 then metal
          else ((simulate rows sd ed metal sa g2s s2g).getD (i - 1) dfltPoint).heldMetal)
            = .silver →
        ((((simulate rows sd ed metal sa g2s s2g).getD i dfltPoint).switched = some .StoG)
          ↔ ∃ u, s2g = some u
              ∧ ((simulate rows sd ed metal sa g2s s2g).getD i dfltPoint).gsr ≤ u
              ∧ (i = 0
                  ∨ u < ((simulate rows sd ed metal sa g2s s2g).getD (i - 1) dfltPoint).gsr))
        ∧ ((simulate rows sd ed metal sa g2s s2g).getD i dfltPoint).switched ≠ some .GtoS)))
    ∧ (simulate [⟨1, 86, 1⟩, ⟨2, 87, 1⟩] 1 2 .gold 10000 (some 85) none).map
        (fun p => p.switched) = [some .GtoS, none] := by
  constructor
  · intro i hi
    cases hF : rows.filter (inWindow sd ed) with
    | nil =>
      have hout : simulate rows sd ed metal sa g2s s2g = [] := by
        rw [simulate, hF]
      rw [hout] at hi
      exact absurd hi (by simp)
    | cons first rest =>
      have hout : simulate rows sd ed metal sa g2s s2g
          = simGo g2s s2g sa (sa / first.gold) (sa / first.silver)
              ⟨metal, startOunces metal sa first⟩ none (first :: rest) := by
        rw [simulate, hF]
      obtain ⟨hlen, hgsr, hcross⟩ := simGo_spec g2s s2g sa (sa / first.gold) (sa / first.silver)
        (first :: rest) ⟨metal, startOunces metal sa first⟩ none _ rfl
      rw [hout] at hi ⊢
      have hi' : i < (first :: rest).length := by rw [← hlen]; exact hi
      have hc := hcross i hi'
      rcases hc with ⟨hcg, hcs⟩
      cases hi0 : i with
      | zero =>
        subst hi0
        simp only [if_pos (rfl : (0 : Nat) = 0), eq_self_iff_true, if_true] at hcg hcs ⊢
        constructor
        · intro hheld
          rcases hcg (by simpa using hheld) with ⟨hiff, hne⟩
          refine ⟨?_, hne⟩
          rw [hiff, crossUpCond_first]
          constructor
          · rintro ⟨u, h1, h2⟩
            exact ⟨u, h1, h2, Or.inl trivial⟩
          · rintro ⟨u, h1, h2, _⟩
            exact ⟨u, h1, h2⟩
        · intro hheld
          rcases hcs (by simpa using hheld) with ⟨hiff, hne⟩
          refine ⟨?_, hne⟩
          rw [hiff, crossDownCond_first]
          constructor
          · rintro ⟨u, h1, h2⟩
            exact ⟨u, h1, h2, Or.inl trivial⟩
          · rintro ⟨u, h1, h2, _⟩
            exact ⟨u, h1, h2⟩
      | succ j =>
        subst hi0
        have hne0 : ¬(j + 1 = 0) := by omega
        simp only [if_neg hne0] at hcg hcs ⊢
        constructor
        · intro hheld
          rcases hcg hheld with ⟨hiff, hne⟩
          refine ⟨?_, hne⟩
          rw [hiff, crossUpCond_later]
          constructor
          · rintro ⟨u, h1, h2, h3⟩
            exact ⟨u, h1, h2, Or.inr h3⟩
          · rintro ⟨u, h1, h2, h3⟩
            rcases h3 with h3 | h3
            · exact absurd h3 hne0
            · exact ⟨u, h1, h2, h3⟩
        · intro hheld
          rcases hcs hheld with ⟨hiff, hne⟩
          refine ⟨?_, hne⟩
          rw [hiff, crossDownCond_later]
          constructor
          · rintro ⟨u, h1, h2, h3⟩
            exact ⟨u, h1, h2, Or.inr h3⟩
          · rintro ⟨u, h1, h2, h3⟩
            rcases h3 with h3 | h3
            · exact absurd h3 hne0
            · exact ⟨u, h1, h2, h3⟩
  · norm_num [simulate, simGo, simStep, inWindow, startOunces, List.filter,
      Option.some_ne_none]

/-- Witness for C1: the ratio series `[86, 87]` with up-threshold 85 and
initial holding gold switches at index 0. -/
theorem simulate_crossing_witness :
    (simulate [⟨1, 86, 1⟩, ⟨2, 87, 1⟩] 1 2 .gold 10000 (some 85) none).map
      (fun p => p.switched) = [some .GtoS, none] :=
  (simulate_crossing [⟨1, 86, 1⟩, ⟨2, 87, 1⟩] 1 2 .gold 10000 (some 85) none).2

theorem simStep_portPct (g2s s2g : Option Rat) (sa gBH sBH : Rat) (st : SimState)
    (r : Row) (prevOpt : Option Rat) :
    (simStep g2s s2g sa gBH sBH st r prevOpt).2.portPct
      = ((simStep g2s s2g sa gBH sBH st r prevOpt).2.port / sa - 1) * 100 := rfl

theorem simStep_first_port (g2s s2g : Option Rat) (sa gBH sBH : Rat) (metal : Metal)
    (r : Row) (hg : r.gold ≠ 0) (hs : r.silver ≠ 0) :
    (simStep g2s s2g sa gBH sBH ⟨metal, startOunces metal sa r⟩ r none).2.port = sa := by
  cases metal with
  | gold =>
    unfold simStep startOunces
    dsimp only
    by_cases h0 : g2s = none ∧ s2g = none
    · rw [if_pos h0]
      dsimp only
      exact div_mul_cancel₀ sa hg
    · rw [if_neg h0]
      cases hg2 : g2s with
      | none =>
        dsimp only
        exact div_mul_cancel₀ sa hg
      | some u =>
        dsimp only
        by_cases hc : u ≤ r.gold / r.silver
        · rw [if_pos ⟨hc, Or.inl rfl⟩]
          dsimp only
          rw [div_mul_cancel₀ _ hs, div_mul_cancel₀ _ hg]
        · rw [if_neg (fun hq => hc hq.1)]
          dsimp only
          exact div_mul_cancel₀ sa hg
  | silver =>
    unfold simStep startOunces
    dsimp only
    by_cases h0 : g2s = none ∧ s2g = none
    · rw [if_pos h0]
      dsimp only
      exact div_mul_cancel₀ sa hs
    · rw [if_neg h0]
      cases hs2 : s2g with
      | none =>
        dsimp only
        exact div_mul_cancel₀ sa hs
      | some u =>
        dsimp only
        by_cases hc : r.gold / r.silver ≤ u
        · rw [if_pos ⟨hc, Or.inl rfl⟩]
          dsimp only
          rw [div_mul_cancel₀ _ hg, div_mul_cancel₀ _ hs]
        · rw [if_neg (fun hq => hc hq.1)]
          dsimp only
          exact div_mul_cancel₀ sa hs

/-- C10: when the filtered in-range series is non-empty and its first record
has strictly positive prices, the first simulation point's portfolio value is
exactly `startAmount` and its percentage gain is exactly 0, for every start
asset and any thresholds — including when a switch fires on the very first
step. -/
theorem simulate_firstPoint (rows : List Row) (sd ed : Nat) (metal : Metal) (sa : Rat)
    (g2s s2g : Option Rat) (r : Row) (rest : List Row)
    (hf : rows.filter (inWindow sd ed) = r :: rest)
    (hg : 0 < r.gold) (hs : 0 < r.silver) (hsa : sa ≠ 0) :
    ∃ p ps, simulate rows sd ed metal sa g2s s2g = p :: ps
      ∧ p.port = sa ∧ p.portPct = 0 := by
  have hout : simulate rows sd ed metal sa g2s s2g
      = simGo g2s s2g sa (sa / r.gold) (sa / r.silver)
          ⟨metal, startOunces metal sa r⟩ none (r :: rest) := by
    rw [simulate, hf]
  rw [hout, simGo]
  have hport := simStep_first_port g2s s2g sa (sa / r.gold) (sa / r.silver) metal r
    (by exact ne_of_gt hg) (by exact ne_of_gt hs)
  refine ⟨_, _, rfl, hport, ?_⟩
  rw [simStep_portPct, hport, div_self hsa]
  norm_num

/-- Witness for C10: a first-day switch (ratio 50 at or above threshold 40)
still leaves the first point's portfolio at exactly the start amount. -/
theorem simulate_firstPoint_witness :
    List.filter (inWindow 1 1) [(⟨1, 100, 2⟩ : Row)] = [⟨1, 100, 2⟩]
    ∧ (0 : Rat) < 100 ∧ (0 : Rat) < 2 ∧ (10000 : Rat) ≠ 0
    ∧ ∃ p ps, simulate [(⟨1, 100, 2⟩ : Row)] 1 1 .gold 10000 (some 40) none = p :: ps
        ∧ p.port = 10000 ∧ p.portPct = 0 :=
  ⟨rfl, by norm_num, by norm_num, by norm_num,
    simulate_firstPoint [⟨1, 100, 2⟩] 1 1 .gold 10000 (some 40) none ⟨1, 100, 2⟩ []
      rfl (by norm_num) (by norm_num) (by norm_num)⟩

/-! ### Date-normalizer evaluation (C8) -/

/-- C8: `toISODate` is not exception-free — the all-digit token
`"1000000000000"` takes the spreadsheet-serial branch, produces a timestamp
far outside the ±8.64e15 ms `Date` range, and `toISOString` throws a
`RangeError` (modelled as `.error ()`); ordinary serial and ISO inputs
normalize as documented. -/
theorem toISODate_overflow :
    toISODate (fun _ => none) "1000000000000" = .error ()
    ∧ toISODate (fun _ => none) "1" = .ok (some "1899-12-31")
    ∧ toISODate (fun _ => none) "2020-01-02" = .ok (some "2020-01-02") := by
  refine ⟨?_, ?_, ?_⟩ <;> rfl

/-! ### CSV-parser theorems (C9) -/

theorem mem_setCsvRow {r y : CsvRow} : ∀ {l : List CsvRow},
    y ∈ setCsvRow l r → y = r ∨ y ∈ l := by
  intro l
  induction l with
  | nil =>
    intro h
    simpa [setCsvRow] using h
  | cons x xs ih =>
    intro h
    by_cases hx : x.date = r.date
    · rw [setCsvRow, if_pos hx] at h
      cases h with
      | head => exact .inl rfl
      | tail _ h => exact .inr (.tail _ h)
    · rw [setCsvRow, if_neg hx] at h
      cases h with
      | head => exact .inr (.head _)
      | tail _ h =>
        rcases ih h with h' | h'
        · exact .inl h'
        · exact .inr (.tail _ h')

theorem mem_foldl_setCsvRow {y : CsvRow} : ∀ (l init : List CsvRow),
    y ∈ List.foldl setCsvRow init l → y ∈ init ∨ y ∈ l := by
  intro l
  induction l with
  | nil =>
    intro init h
    exact .inl h
  | cons x xs ih =>
    intro init h
    rw [List.foldl_cons] at h
    rcases ih _ h with h' | h'
    · rcases mem_setCsvRow h' with h'' | h''
      · exact .inr (h'' ▸ .head _)
      · exact .inl h''
    · exact .inr (.tail _ h')

theorem insertCsvSorted_perm (r : CsvRow) (l : List CsvRow) :
    (insertCsvSorted r l).Perm (r :: l) := by
  induction l with
  | nil => exact .refl _
  | cons x xs ih =>
    rw [insertCsvSorted]
    by_cases h : r.date < x.date
    · rw [if_pos h]
    · rw [if_neg h]
      exact .trans (.cons x ih) (List.Perm.swap r x xs)

theorem sortCsvRows_perm (l : List CsvRow) : (sortCsvRows l).Perm l := by
  induction l with
  | nil => exact .refl _
  | cons x xs ih =>
    exact .trans (insertCsvSorted_perm x (sortCsvRows xs)) (.cons x ih)

/-- C9, counterexample: a CSV row with a negative gold price parses into an
emitted record — strict positivity is not enforced. -/
theorem parseCsv_negative_cex :
    parseCsv (fun _ => none) [["date", "gold", "silver"], ["2020-01-01", "-5", "3"]]
      = [⟨"2020-01-01", -5, 3⟩]
    ∧ ((-5 : Rat) < 0) := by
  constructor
  · rfl
  · norm_num

/-- C9, amended: every record the CSV parser emits has a date produced by a
successful `toISO` normalization of one of its input cells and prices produced
by successful (finite) `Number` parses of input cells; no further (e.g. sign)
filtering is applied. -/
theorem parseCsv_provenance (fb : String → Option String) (cells : List (List String)) :
    ∀ rr ∈ parseCsv fb cells,
      (∃ line ∈ cells, ∃ cell ∈ line, toISO fb (jsTrim cell) = some rr.date)
      ∧ (∃ line ∈ cells, ∃ cell ∈ line, jsNumber cell = some rr.gold)
      ∧ (∃ line ∈ cells, ∃ cell ∈ line, jsNumber cell = some rr.silver) := by
  intro rr hrr
  cases cells with
  | nil =>
    rw [parseCsv] at hrr
    cases hrr
  | cons header dataLines =>
    rw [parseCsv] at hrr
    cases hdi : (header.map (fun h => toLowerStr (jsTrim h))).findIdx?
        (fun h => containsSub "date" h) with
    | none =>
      rw [hdi] at hrr
      cases hrr
    | some di =>
      rw [hdi] at hrr
      cases hgi : (header.map (fun h => toLowerStr (jsTrim h))).findIdx?
          (fun h => containsSub "gold" h) with
      | none =>
        rw [hgi] at hrr
        cases hrr
      | some gi =>
        rw [hgi] at hrr
        cases hsi : (header.map (fun h => toLowerStr (jsTrim h))).findIdx?
            (fun h => containsSub "silver" h) with
        | none =>
          rw [hsi] at hrr
          cases hrr
        | some si =>
          rw [hsi] at hrr
          have hout := (sortCsvRows_perm _).mem_iff.mp hrr
          rcases mem_foldl_setCsvRow _ _ hout with hinit | hmem
          · cases hinit
          rcases List.mem_filterMap.mp hmem with ⟨line, hline, hf⟩
          by_cases hlen : line.length < 3
          · rw [if_pos hlen] at hf
            cases hf
          rw [if_neg hlen] at hf
          cases hd : (line.get? di).bind (fun x => toISO fb (jsTrim x)) with
          | none =>
            rw [hd] at hf
            cases hf
          | some dte =>
            rw [hd] at hf
            cases hg : (line.get? gi).bind jsNumber with
            | none =>
              rw [hg] at hf
              cases hf
            | some g =>
              rw [hg] at hf
              cases hsv : (line.get? si).bind jsNumber with
              | none =>
                rw [hsv] at hf
                cases hf
              | some sv =>
                rw [hsv] at hf
                cases hf
                rcases Option.bind_eq_some.mp hd with ⟨cd, hcd, hcd2⟩
                rcases Option.bind_eq_some.mp hg with ⟨cg, hcg, hcg2⟩
                rcases Option.bind_eq_some.mp hsv with ⟨cs, hcs, hcs2⟩
                refine ⟨⟨line, .tail _ hline, cd, List.get?_mem hcd, hcd2⟩,
                  ⟨line, .tail _ hline, cg, List.get?_mem hcg, hcg2⟩,
                  ⟨line, .tail _ hline, cs, List.get?_mem hcs, hcs2⟩⟩

/-- Witness for the amended C9 theorem at the counterexample CSV. -/
theorem parseCsv_provenance_witness :
    (⟨"2020-01-01", -5, 3⟩ : CsvRow)
        ∈ parseCsv (fun _ => none) [["date", "gold", "silver"], ["2020-01-01", "-5", "3"]]
    ∧ ∃ line ∈ [["date", "gold", "silver"], ["2020-01-01", "-5", "3"]], ∃ cell ∈ line,
        jsNumber cell = some (⟨"2020-01-01", -5, 3⟩ : CsvRow).gold := by
  have hmem : (⟨"2020-01-01", -5, 3⟩ : CsvRow)
      ∈ parseCsv (fun _ => none) [["date", "gold", "silver"], ["2020-01-01", "-5", "3"]] := by
    rw [show parseCsv (fun _ => none) [["date", "gold", "silver"], ["2020-01-01", "-5", "3"]]
        = [⟨"2020-01-01", -5, 3⟩] from rfl]
    exact .head _
  exact ⟨hmem,
    (parseCsv_provenance (fun _ => none)
      [["date", "gold", "silver"], ["2020-01-01", "-5", "3"]] _ hmem).2.1⟩

end GSV
